import Mathlib

set_option synthInstance.maxSize 1000

/-!
Shallow embedding of `src/packages/ember-metal/lib/events.js` (the Ember
Metal event system: a per-object listener registry plus a synchronous
dispatcher).

The registry is the nested hash described at the top of the source file:

    meta(obj).listeners[eventName][targetGuid][methodGuid] = action

An `action` is a record `{ target, method, xform }` stored once and shared
by reference: `addListener` mutates the record's `xform` field in place on
re-registration, `removeListener` nulls the slot (tombstone) but leaves the
record alive, and `deferEvent` snapshots the record references.  We model
JavaScript's object references with a heap (`List EAction`) addressed by
`Nat`; registry slots hold addresses.

External collaborators not present in `src/` are modelled from the spec:
  * `guidFor` (spec section 6): a stable injective identity token for any
    value.  We key the maps directly by the value (`Val`), which is exactly
    an injective guid; the reserved `__ember_source__` token is the
    `GKey.sentinel` constructor, excluded from iteration as in the source's
    `SKIP_PROPERTIES`.
  * `Ember.meta` / `Ember.metaPath` (spec section 6): a per-object
    associative store with get-or-create nested-path semantics; modelled by
    `getTS` / `getAS` plus writing the updated maps back with `amSet`.
  * `Ember.assert` (spec section 7): raises `InvalidArgument` synchronously
    when its test is false; modelled by `emberAssert`.

The optional object-level hooks (`didAddListener`, `didRemoveListener`, a
custom `obj.sendEvent`) are absent on the objects we model, which the spec
explicitly allows ("all optional; absence is not an error").
-/

/-- JavaScript values as far as the event system distinguishes them:
numbers, strings, plain objects (by identity), function values (by
identity), and `null`/`undefined` collapsed into `vnull` (the code only
ever tests them for truthiness). -/
inductive Val where
  | vnum (n : Int)
  | vstr (s : String)
  | vobj (g : Nat)
  | vfn (id : Nat)
  | vnull
deriving DecidableEq, Repr

/-- JavaScript truthiness for the values of `Val`. -/
def truthy : Val → Bool
  | Val.vnum n => n != 0
  | Val.vstr s => s != ("")
  | Val.vobj _ => true
  | Val.vfn _ => true
  | Val.vnull => false

/-- Whether a value is a function (`typeof v === 'function'`). -/
def isFn : Val → Bool
  | Val.vfn _ => true
  | _ => false

/-- A key of one of the nested registry hashes: either the reserved
`__ember_source__` property (skipped by `iterateSet` via
`SKIP_PROPERTIES`), or the guid of a value.  `guidFor` is injective
(spec section 6), so we key by the value itself. -/
inductive GKey where
  | sentinel
  | g (v : Val)
deriving DecidableEq, Repr

/-- One registered listener record (`{ target, method, xform }`,
source lines 29-33).  `target` is `vnull` for "no explicit target",
`method` is a function value or a string naming a method to resolve
late on the target, `xform` is a function value or `vnull` when absent. -/
structure EAction where
  target : Val
  method : Val
  xform : Val
deriving DecidableEq, Repr

/-- Insertion-ordered association list, the model of a JavaScript hash:
`for .. in` visits keys in insertion order, and assigning to an existing
key keeps its position. -/
abbrev AMap (κ : Type) (α : Type) := List (κ × α)

/-- Hash read `m[k]`: first entry with the key (keys are unique in any
hash built by the operations below). -/
def amGet {κ α : Type} [DecidableEq κ] : AMap κ α → κ → Option α
  | [], _ => none
  | (k0, v0) :: rest, k => if k = k0 then some v0 else amGet rest k

/-- Hash write `m[k] = v`: overwrite in place if the key exists
(preserving insertion order), otherwise append. -/
def amSet {κ α : Type} [DecidableEq κ] : AMap κ α → κ → α → AMap κ α
  | [], k, v => [(k, v)]
  | (k0, v0) :: rest, k, v => if k = k0 then (k0, v) :: rest else (k0, v0) :: amSet rest k v

/-- `actionSet` hash: methodGuid to action-record address, where a stored
`none` is the explicit tombstone written by `removeListener` /
`suspendListener` (distinct from the key being absent). -/
abbrev ActionSet := AMap GKey (Option Nat)

/-- `targetSet` hash: targetGuid to action set (a stored `none` models a
null entry, guarded by `if (actionSet)` in `iterateSet`). -/
abbrev TargetSet := AMap GKey (Option ActionSet)

/-- `listenerSet` hash: event name to target set; `hasListeners` writes an
explicit `null` (`none`) as its negative-result cache. -/
abbrev ListenerSet := AMap String (Option TargetSet)

/-- The mutable state the event system keeps for one object: the heap of
action records (JavaScript object references, addressed by allocation
order) and the object's `meta.listeners` hash. -/
structure EState where
  heap : List EAction
  listeners : ListenerSet
deriving DecidableEq, Repr

/-- Errors that can surface from the embedded operations. -/
inductive EmErr where
  | invalidArgument (msg : String)
  | listenerError (fn : Nat)
  | typeError
deriving DecidableEq, Repr

/-- Modelled from the spec: `Ember.assert` lives in
`packages/ember-metal/lib/core.js`, which is not part of `src/`; per spec
section 7 a failed argument assertion raises `InvalidArgument`
synchronously. -/
def emberAssert (test : Bool) (msg : String) : Except EmErr Unit :=
  if test then Except.ok () else Except.error (EmErr.invalidArgument msg)

/-- The environment supplied by the JavaScript world: late-bound method
resolution (`target[name]`) and which function values raise when called. -/
structure Env where
  resolve : Val → String → Val
  raises : Nat → Bool

/-- The record of one listener invocation performed by `invokeAction`:
`origin` is the heap address of the action record; when `xf = some x` the
transform function `x` was called as `x(receiver, mth, params)` (the full
parameter list as its third argument); when `xf = none` the resolved
method `mth` was applied to `receiver` with `params` as its argument
list. -/
structure Call where
  origin : Nat
  receiver : Val
  mth : Val
  xf : Option Nat
  params : List Val
deriving DecidableEq, Repr

/-- `if (!target) { target = params[0]; }` (source line 92): a falsy
registered target defaults to the firing object. -/
def defaultTarget (t : Val) (params : List Val) : Val :=
  if truthy t then t else params.headD Val.vnull

/-- `if ('string' === typeof method) { method = target[method]; }`
(source line 93): late-bound method lookup by name. -/
def resolveMethod (env : Env) (target : Val) : Val → Val
  | Val.vstr s => env.resolve target s
  | m => m

/-- `invokeAction` (source lines 88-108): default a falsy target to
`params[0]`, resolve a string method on the target late, then call the
xform (if any) with `(target, method, params)`, otherwise apply the method
to the target with `params`.  Calling a non-function raises `typeError`;
a raising listener function propagates as `listenerError`. -/
def invokeAction (env : Env) (origin : Nat) (action : EAction) (params : List Val) :
    Except EmErr Call :=
  let target := defaultTarget action.target params
  let mth := resolveMethod env target action.method
  if truthy action.xform then
    match action.xform with
    | Val.vfn x =>
      if env.raises x then Except.error (EmErr.listenerError x)
      else Except.ok { origin := origin, receiver := target, mth := mth, xf := some x, params := params }
    | _ => Except.error EmErr.typeError
  else
    match mth with
    | Val.vfn f =>
      if env.raises f then Except.error (EmErr.listenerError f)
      else Except.ok { origin := origin, receiver := target, mth := mth, xf := none, params := params }
    | _ => Except.error EmErr.typeError

/-- Result of one callback step inside `iterateSet`: continue, request the
early exit (the callback returned `true`), or raise. -/
inductive CbRes (σ : Type) where
  | cont (s : σ)
  | stop (s : σ)
  | fail (s : σ) (e : EmErr)

/-- Outcome of `iterateSet`: ran to the end (JS return value `false`),
exited early (JS return value `true`), or a callback raised; in every case
the callback's accumulated effects `σ` are kept. -/
inductive IterOut (σ : Type) where
  | finished (s : σ)
  | early (s : σ)
  | failed (s : σ) (e : EmErr)

/-- The boolean `iterateSet` returns in the source (`true` iff a callback
returned `true`). -/
def iterBool {σ : Type} : IterOut σ → Bool
  | IterOut.early _ => true
  | _ => false

/-- The callback's accumulated effects, regardless of outcome. -/
def iterOutState {σ : Type} : IterOut σ → σ
  | IterOut.finished s => s
  | IterOut.early s => s
  | IterOut.failed s _ => s

/-- Inner loop of `iterateSet` (source lines 72-81): visit each non-null,
non-sentinel action of one action set. -/
def iterActions {σ : Type} (heap : List EAction) (acts : ActionSet)
    (cb : σ → Nat → EAction → CbRes σ) (s : σ) : IterOut σ :=
  match acts with
  | [] => IterOut.finished s
  | (mk0, slot) :: rest =>
    if mk0 = GKey.sentinel then iterActions heap rest cb s
    else match slot with
      | none => iterActions heap rest cb s
      | some addr =>
        match heap[addr]? with
        | none => iterActions heap rest cb s
        | some act =>
          match cb s addr act with
          | CbRes.cont s2 => iterActions heap rest cb s2
          | CbRes.stop s2 => IterOut.early s2
          | CbRes.fail s2 e => IterOut.failed s2 e

/-- Outer loop of `iterateSet` (source lines 66-83): visit each non-null,
non-sentinel action set of the target set. -/
def iterTargets {σ : Type} (heap : List EAction) (ts : TargetSet)
    (cb : σ → Nat → EAction → CbRes σ) (s : σ) : IterOut σ :=
  match ts with
  | [] => IterOut.finished s
  | (tk0, mas) :: rest =>
    if tk0 = GKey.sentinel then iterTargets heap rest cb s
    else match mas with
      | none => iterTargets heap rest cb s
      | some acts =>
        match iterActions heap acts cb s with
        | IterOut.finished s2 => iterTargets heap rest cb s2
        | IterOut.early s2 => IterOut.early s2
        | IterOut.failed s2 e => IterOut.failed s2 e

/-- `iterateSet` (source lines 63-85); a missing target set
(`if (!targetSet) return false`) visits nothing. -/
def iterateSet {σ : Type} (heap : List EAction) (ts : Option TargetSet)
    (cb : σ → Nat → EAction → CbRes σ) (s : σ) : IterOut σ :=
  match ts with
  | none => IterOut.finished s
  | some t => iterTargets heap t cb s

/-- `targetSetFor` (source lines 51-56): `meta(obj).listeners[eventName]`,
with a missing hash or a null entry collapsing to "no target set"
(`|| false` in the source). -/
def targetSetFor (ls : ListenerSet) (ev : String) : Option TargetSet :=
  match amGet ls ev with
  | some (some ts) => some ts
  | _ => none

/-- Writable read of `listeners[eventName]` as `metaPath` performs it
(modelled from the spec, section 6: get-or-create nested path): a missing
or null level is replaced by a fresh empty hash. -/
def getTS (ls : ListenerSet) (ev : String) : TargetSet :=
  match amGet ls ev with
  | some (some ts) => ts
  | _ => []

/-- Writable read of `targetSet[guidFor(target)]`, the second level of
`actionSetFor` (source lines 44-46). -/
def getAS (ts : TargetSet) (tk : GKey) : ActionSet :=
  match amGet ts tk with
  | some (some acts) => acts
  | _ => []

/-- The slot stored for one (event, target, method) identity:
`none` = never registered, `some none` = tombstone,
`some (some addr)` = live action record at `addr`. -/
def slotAt (ls : ListenerSet) (ev : String) (tk mk0 : GKey) : Option (Option Nat) :=
  amGet (getAS (getTS ls ev) tk) mk0

/-- Target/method normalization shared by `addListener`, `removeListener`
and `suspendListener` (source lines 121-124): a callable passed in the
target position with no method is reinterpreted as the method, with no
target. -/
def normalizeArgs (target mth : Val) : Val × Val :=
  if !truthy mth && isFn target then (Val.vnull, target) else (target, mth)

/-- `addListener` (source lines 118-138).  Asserts on object and event
name;  if the slot already holds a live action the record's `xform` is
overwritten in place (no new record); otherwise (absent or tombstoned
slot, both falsy) a fresh record is allocated and stored. -/
def addListener (st : EState) (objV : Val) (ev : String)
    (targetArg methodArg xformArg : Val) : Except EmErr EState :=
  match emberAssert (truthy objV && (ev != (""))) ("You must pass at least an object and event name to Ember.addListener") with
  | Except.error e => Except.error e
  | Except.ok _ =>
    let tm := normalizeArgs targetArg methodArg
    let tk := GKey.g tm.1
    let mk0 := GKey.g tm.2
    let ts0 := getTS st.listeners ev
    let acts0 := getAS ts0 tk
    match amGet acts0 mk0 with
    | some (some addr) =>
      Except.ok { heap := heapSetXform st.heap addr xformArg,
                  listeners := amSet st.listeners ev (some (amSet ts0 tk (some acts0))) }
    | _ =>
      let addr := st.heap.length
      Except.ok { heap := st.heap ++ [{ target := tm.1, method := tm.2, xform := xformArg }],
                  listeners := amSet st.listeners ev
                    (some (amSet ts0 tk (some (amSet acts0 mk0 (some addr))))) }
where
  /-- In-place mutation `actionSet[methodGuid].xform = xform`
  (source line 132): the shared record keeps its address. -/
  heapSetXform : List EAction → Nat → Val → List EAction
  | [], _, _ => []
  | a :: rest, 0, x => { a with xform := x } :: rest
  | a :: rest, n + 1, x => a :: heapSetXform rest n x

/-- `removeListener` (source lines 141-157).  No argument assertion.  The
slot is nulled (tombstoned) only when it currently holds a live action;
the writable `actionSetFor` walk creates missing path levels either
way. -/
def removeListener (st : EState) (_objV : Val) (ev : String)
    (targetArg methodArg : Val) : EState :=
  let tm := normalizeArgs targetArg methodArg
  let tk := GKey.g tm.1
  let mk0 := GKey.g tm.2
  let ts0 := getTS st.listeners ev
  let acts0 := getAS ts0 tk
  let acts1 := match amGet acts0 mk0 with
    | some (some _) => amSet acts0 mk0 none
    | _ => acts0
  { st with listeners := amSet st.listeners ev (some (amSet ts0 tk (some acts1))) }

/-- The intermediate state `suspendListener` runs its callback in: the
slot for the suspended (target, method) identity is tombstoned
(`actionSet[methodGuid] = null`, source line 176). -/
def suspendMid (st : EState) (ev : String) (targetArg methodArg : Val) : EState :=
  let tm := normalizeArgs targetArg methodArg
  let tk := GKey.g tm.1
  let mk0 := GKey.g tm.2
  let ts0 := getTS st.listeners ev
  let acts0 := getAS ts0 tk
  { st with listeners := amSet st.listeners ev (some (amSet ts0 tk (some (amSet acts0 mk0 none)))) }

/-- The `iterateSet` callback used by `sendEvent` (`invokeAction` as the
callback, source line 206): a successful invocation is appended to the
trace and never returns `true`; a raising one aborts the iteration with
the original error. -/
def sendCb (env : Env) (params : List Val) :
    List Call → Nat → EAction → CbRes (List Call) :=
  fun s addr act =>
    match invokeAction env addr act params with
    | Except.ok c => CbRes.cont (s ++ [c])
    | Except.error e => CbRes.fail s e

/-- The observable outcome of a fire: the calls performed, in order, and
the error that aborted the iteration, if any. -/
def iterOutPair : IterOut (List Call) → List Call × Option EmErr
  | IterOut.finished s => (s, none)
  | IterOut.early s => (s, none)
  | IterOut.failed s e => (s, some e)

/-- `sendEvent` (source lines 200-208) for an object without a custom
`sendEvent` hook: dispatch `arguments = (obj, eventName, ...args)` to
every live action of the event via `iterateSet`/`invokeAction`.  The
result is the invocation trace plus the propagated error, if a listener
raised (the source otherwise returns `true` unconditionally). -/
def sendEvent (env : Env) (st : EState) (objV : Val) (ev : String)
    (args : List Val) : List Call × Option EmErr :=
  iterOutPair (iterateSet st.heap (targetSetFor st.listeners ev)
    (sendCb env (objV :: Val.vstr ev :: args)) [])

/-- The closure value `deferEvent` returns: the snapshotted action record
references (heap addresses) and the captured `arguments`. -/
structure Deferred where
  actions : List Nat
  params : List Val
deriving DecidableEq, Repr

/-- `deferEvent` (source lines 211-226): snapshot the current live action
record references for the event and capture `arguments`. -/
def deferEvent (st : EState) (objV : Val) (ev : String) (args : List Val) : Deferred :=
  { actions := iterOutState (iterateSet st.heap (targetSetFor st.listeners ev)
      (fun s addr _ => CbRes.cont (s ++ [addr])) []),
    params := objV :: Val.vstr ev :: args }

/-- The replay loop shared by the deferred closure (source lines 222-224)
and, as a proof vehicle, by the characterization of `sendEvent`: invoke
each action in order with the given parameters, aborting on the first
error. -/
def runActions (env : Env) (heap : List EAction) (params : List Val) :
    List Nat → List Call → List Call × Option EmErr
  | [], s => (s, none)
  | addr :: rest, s =>
    match heap[addr]? with
    | none => runActions env heap params rest s
    | some act =>
      match invokeAction env addr act params with
      | Except.ok c => runActions env heap params rest (s ++ [c])
      | Except.error e => (s, some e)

/-- Invoking the closure returned by `deferEvent` at a later time, against
the then-current heap: the snapshotted record references are dereferenced
at replay time, so in-place `xform` refreshes are visible while slot
tombstones are not. -/
def runDeferred (env : Env) (heap : List EAction) (d : Deferred) :
    List Call × Option EmErr :=
  runActions env heap d.params d.actions []

/-- `hasListeners` (source lines 229-240): probe with an early-exiting
callback; on a negative result, cache it by nulling the event's entry in
the listener hash. -/
def hasListeners (st : EState) (ev : String) : Bool × EState :=
  if iterBool (iterateSet st.heap (targetSetFor st.listeners ev)
      (fun (s : Unit) _ _ => CbRes.stop s) ()) then
    (true, st)
  else
    (false, { st with listeners := amSet st.listeners ev none })

/-- One API call a suspension body can perform on the object's registry.
A body running inside `suspendListener` is a JavaScript function; the
registry effects it can have are exactly the event-system entry points, so
we model it as a program of such calls (plus a return value). -/
inductive BodyCmd where
  | add (objV : Val) (ev : String) (targetArg methodArg xformArg : Val)
  | remove (objV : Val) (ev : String) (targetArg methodArg : Val)
  | probe (ev : String)
  | fire (objV : Val) (ev : String) (args : List Val)
deriving DecidableEq, Repr

/-- Interpret a suspension body over the registry, tracking whether the
`actionSet` hash captured by `suspendListener` at entry (for event
`evSusp`) is still reachable from the registry.  All ordinary operations
mutate the nested hashes in place, so reachability is broken exactly by
`hasListeners`' negative-result cleanup on the suspended event, which
nulls `listeners[evSusp]` (source lines 236-237) and detaches the whole
chain; a later writable walk creates fresh hashes, so the captured one
never re-attaches.  A raising call aborts the rest of the body (the
exception propagates out of the callback), keeping the effects performed
so far. -/
def runBody (env : Env) (evSusp : String) :
    List BodyCmd → EState → Bool → Except EmErr Unit × EState × Bool
  | [], st, att => (Except.ok (), st, att)
  | BodyCmd.add objV ev t m x :: rest, st, att =>
    match addListener st objV ev t m x with
    | Except.ok st' => runBody env evSusp rest st' att
    | Except.error e => (Except.error e, st, att)
  | BodyCmd.remove objV ev t m :: rest, st, att =>
    runBody env evSusp rest (removeListener st objV ev t m) att
  | BodyCmd.probe ev :: rest, st, att =>
    runBody env evSusp rest (hasListeners st ev).2
      (att && !(ev == evSusp && (hasListeners st ev).1 == false))
  | BodyCmd.fire objV ev args :: rest, st, att =>
    match (sendEvent env st objV ev args).2 with
    | none => runBody env evSusp rest st att
    | some e => (Except.error e, st, att)

/-- `suspendListener` (source lines 166-182): capture the current slot
value, tombstone it, run the callback (a body program applied to the
normalized target, its receiver), and in a `finally` write the captured
value back through the `actionSet` hash reference captured at entry.
That write is observable in the registry only while the captured hash is
still attached (`runBody`'s flag); when the body detached it via
`hasListeners`' negative cleanup, the write lands in the unreachable hash
and the registry is left as the body left it.  On both the normal and the
raising path the body's result is returned unchanged.  (`env` stands for
the ambient JavaScript world the body's calls run in.) -/
def suspendListener (env : Env) (st : EState) (_objV : Val) (ev : String)
    (targetArg methodArg : Val)
    (callback : Val → List BodyCmd × Val) :
    Except EmErr Val × EState :=
  let tm := normalizeArgs targetArg methodArg
  let tk := GKey.g tm.1
  let mk0 := GKey.g tm.2
  let acts0 := getAS (getTS st.listeners ev) tk
  let action := match amGet acts0 mk0 with
    | some s => s
    | none => none
  let body := callback tm.1
  let out := runBody env ev body.1 (suspendMid st ev targetArg methodArg) true
  let st2 := out.2.1
  let ls3 := amSet st2.listeners ev (some (amSet (getTS st2.listeners ev) tk
    (some (amSet (getAS (getTS st2.listeners ev) tk) mk0 action))))
  let st3 := if out.2.2 then { st2 with listeners := ls3 } else st2
  (match out.1 with
    | Except.ok _ => Except.ok body.2
    | Except.error e => Except.error e, st3)

/-- The addresses one action set contributes to iteration: non-sentinel
keys whose slot holds a live record. -/
def contribA (p : GKey × Option Nat) : List Nat :=
  if p.1 = GKey.sentinel then [] else
    match p.2 with
    | some a => [a]
    | none => []

/-- The live addresses of an action set, in insertion order. -/
def liveAddrsAS : ActionSet → List Nat
  | [] => []
  | p :: rest => contribA p ++ liveAddrsAS rest

/-- The addresses one target-set entry contributes: nothing for the
sentinel or a null action set. -/
def contribT (p : GKey × Option ActionSet) : List Nat :=
  if p.1 = GKey.sentinel then [] else
    match p.2 with
    | some acts => liveAddrsAS acts
    | none => []

/-- The live addresses of a target set, in iteration order. -/
def liveAddrsTS : TargetSet → List Nat
  | [] => []
  | p :: rest => contribT p ++ liveAddrsTS rest

/-- The live addresses of an event's (possibly missing) target set: the
actions `iterateSet` visits, in order. -/
def liveAddrs : Option TargetSet → List Nat
  | none => []
  | some ts => liveAddrsTS ts

/-- Whether `addr` is referenced by no slot of `ts` other than the
`(tk, mk0)` one — record references are unaliased, which every state built
by the registration API satisfies. -/
def onlySlotFor (ts : TargetSet) (addr : Nat) (tk mk0 : GKey) : Bool :=
  ts.all fun p =>
    match p.2 with
    | none => true
    | some acts => acts.all fun q => decide (q.2 = some addr → p.1 = tk ∧ q.1 = mk0)

/-- A trivial environment for concrete scenarios: no method names resolve
and no function raises. -/
def env0 : Env :=
  { resolve := fun _ _ => Val.vnull, raises := fun _ => false }

/-- Unwrap a successful registration (concrete scenarios only). -/
def okState : Except EmErr EState → EState
  | Except.ok s => s
  | Except.error _ => { heap := [], listeners := [] }

/-! ### Association-map lemmas -/

theorem amGet_amSet_self {κ α : Type} [DecidableEq κ] (m : AMap κ α) (k : κ) (v : α) :
    amGet (amSet m k v) k = some v := by
  induction m with
  | nil => simp [amGet, amSet]
  | cons p rest ih =>
    obtain ⟨k0, v0⟩ := p
    by_cases h : k = k0 <;> simp [amGet, amSet, h, ih]

theorem amGet_amSet_ne {κ α : Type} [DecidableEq κ] (m : AMap κ α) (k k' : κ) (v : α)
    (h : k' ≠ k) : amGet (amSet m k v) k' = amGet m k' := by
  induction m with
  | nil => simp [amGet, amSet, h]
  | cons p rest ih =>
    obtain ⟨k0, v0⟩ := p
    by_cases hk : k = k0
    · subst hk
      simp [amGet, amSet, h]
    · by_cases hk' : k' = k0 <;> simp [amGet, amSet, hk, hk', ih]

theorem amSet_amSet_self {κ α : Type} [DecidableEq κ] (m : AMap κ α) (k : κ) (v v' : α) :
    amSet (amSet m k v) k v' = amSet m k v' := by
  induction m with
  | nil => simp [amSet]
  | cons p rest ih =>
    obtain ⟨k0, v0⟩ := p
    by_cases h : k = k0 <;> simp [amSet, h, ih]

theorem amSet_self_of_amGet {κ α : Type} [DecidableEq κ] (m : AMap κ α) (k : κ) (v : α)
    (h : amGet m k = some v) : amSet m k v = m := by
  induction m with
  | nil => simp [amGet] at h
  | cons p rest ih =>
    obtain ⟨k0, v0⟩ := p
    by_cases hk : k = k0
    · subst hk
      simp [amGet] at h
      simp [amSet, h]
    · simp [amGet, hk] at h
      simp [amSet, hk, ih h]

theorem amGet_mem {κ α : Type} [DecidableEq κ] (m : AMap κ α) (k : κ) (v : α)
    (h : amGet m k = some v) : (k, v) ∈ m := by
  induction m with
  | nil => simp [amGet] at h
  | cons p rest ih =>
    obtain ⟨k0, v0⟩ := p
    by_cases hk : k = k0
    · subst hk
      simp [amGet] at h
      simp [h]
    · simp [amGet, hk] at h
      simp [ih h]

theorem amGet_none_amSet {κ α : Type} [DecidableEq κ] (m : AMap κ α) (k : κ) (v : α)
    (h : amGet m k = none) : amSet m k v = m ++ [(k, v)] := by
  induction m with
  | nil => simp [amSet]
  | cons p rest ih =>
    obtain ⟨k0, v0⟩ := p
    by_cases hk : k = k0
    · subst hk
      simp [amGet] at h
    · simp [amGet, hk] at h
      simp [amSet, hk, ih h]

theorem mem_amSet_nodup {κ α : Type} [DecidableEq κ] (m : AMap κ α) (k k' : κ) (v v' : α)
    (hnd : (m.map Prod.fst).Nodup) (h : (k', v') ∈ amSet m k v) :
    (k' = k ∧ v' = v) ∨ (k' ≠ k ∧ (k', v') ∈ m) := by
  induction m with
  | nil =>
    simp [amSet] at h
    exact Or.inl ⟨h.1, h.2⟩
  | cons p rest ih =>
    obtain ⟨k0, v0⟩ := p
    simp only [List.map_cons, List.nodup_cons] at hnd
    by_cases hk : k = k0
    · subst hk
      simp [amSet] at h
      rcases h with ⟨h1, h2⟩ | h
      · exact Or.inl ⟨h1, h2⟩
      · right
        constructor
        · rintro rfl
          exact hnd.1 (List.mem_map_of_mem Prod.fst h)
        · exact List.mem_cons_of_mem _ h
    · simp [amSet, hk] at h
      rcases h with ⟨h1, h2⟩ | h
      · subst h1
        subst h2
        exact Or.inr ⟨fun he => hk he.symm, List.mem_cons_self _ _⟩
      · rcases ih hnd.2 h with h' | h'
        · exact Or.inl h'
        · exact Or.inr ⟨h'.1, List.mem_cons_of_mem _ h'.2⟩

/-! ### Live-address lemmas -/

theorem liveAddrsAS_append (l1 l2 : ActionSet) :
    liveAddrsAS (l1 ++ l2) = liveAddrsAS l1 ++ liveAddrsAS l2 := by
  induction l1 with
  | nil => simp [liveAddrsAS]
  | cons p rest ih => simp [liveAddrsAS, ih]

theorem liveAddrsTS_append (l1 l2 : TargetSet) :
    liveAddrsTS (l1 ++ l2) = liveAddrsTS l1 ++ liveAddrsTS l2 := by
  induction l1 with
  | nil => simp [liveAddrsTS]
  | cons p rest ih => simp [liveAddrsTS, ih]

theorem mem_contribA {p : GKey × Option Nat} {a : Nat} :
    a ∈ contribA p ↔ p.1 ≠ GKey.sentinel ∧ p.2 = some a := by
  obtain ⟨k, s⟩ := p
  by_cases hk : k = GKey.sentinel
  · simp [contribA, hk]
  · cases s <;> simp [contribA, hk]
    exact eq_comm

theorem mem_liveAddrsAS {acts : ActionSet} {a : Nat} :
    a ∈ liveAddrsAS acts ↔ ∃ mk0, (mk0, some a) ∈ acts ∧ mk0 ≠ GKey.sentinel := by
  induction acts with
  | nil => simp [liveAddrsAS]
  | cons p rest ih =>
    obtain ⟨k, s⟩ := p
    constructor
    · intro h
      simp only [liveAddrsAS, List.mem_append] at h
      rcases h with h | h
      · rw [mem_contribA] at h
        exact ⟨k, by simp [h.2.symm], h.1⟩
      · obtain ⟨mk0, hm, hs⟩ := ih.mp h
        exact ⟨mk0, List.mem_cons_of_mem _ hm, hs⟩
    · rintro ⟨mk0, hm, hs⟩
      simp only [List.mem_cons] at hm
      simp only [liveAddrsAS, List.mem_append]
      rcases hm with hm | hm
      · left
        rw [mem_contribA]
        have h1 : k = mk0 := by exact congrArg Prod.fst hm |>.symm
        have h2 : s = some a := by exact congrArg Prod.snd hm |>.symm
        exact ⟨h1 ▸ hs, h2⟩
      · exact Or.inr (ih.mpr ⟨mk0, hm, hs⟩)

theorem mem_contribT {p : GKey × Option ActionSet} {a : Nat} :
    a ∈ contribT p ↔ p.1 ≠ GKey.sentinel ∧ ∃ acts, p.2 = some acts ∧ a ∈ liveAddrsAS acts := by
  obtain ⟨k, s⟩ := p
  by_cases hk : k = GKey.sentinel
  · simp [contribT, hk]
  · cases s <;> simp [contribT, hk]

theorem mem_liveAddrsTS {ts : TargetSet} {a : Nat} :
    a ∈ liveAddrsTS ts ↔
      ∃ tk acts, (tk, some acts) ∈ ts ∧ tk ≠ GKey.sentinel ∧ a ∈ liveAddrsAS acts := by
  induction ts with
  | nil => simp [liveAddrsTS]
  | cons p rest ih =>
    obtain ⟨k, s⟩ := p
    constructor
    · intro h
      simp only [liveAddrsTS, List.mem_append] at h
      rcases h with h | h
      · rw [mem_contribT] at h
        obtain ⟨hk, acts, hs, ha⟩ := h
        exact ⟨k, acts, by simp [hs.symm], hk, ha⟩
      · obtain ⟨tk, acts, hm, hk, ha⟩ := ih.mp h
        exact ⟨tk, acts, List.mem_cons_of_mem _ hm, hk, ha⟩
    · rintro ⟨tk, acts, hm, hk, ha⟩
      simp only [List.mem_cons] at hm
      simp only [liveAddrsTS, List.mem_append]
      rcases hm with hm | hm
      · left
        rw [mem_contribT]
        have h1 : k = tk := by exact congrArg Prod.fst hm |>.symm
        have h2 : s = some acts := by exact congrArg Prod.snd hm |>.symm
        exact ⟨h1 ▸ hk, acts, h2, ha⟩
      · exact Or.inr (ih.mpr ⟨tk, acts, hm, hk, ha⟩)

/-- Extraction form of `onlySlotFor`. -/
theorem onlySlotFor_spec {ts : TargetSet} {addr : Nat} {tk mk0 : GKey}
    (h : onlySlotFor ts addr tk mk0 = true) :
    ∀ tk' acts' mk' s, (tk', some acts') ∈ ts → (mk', s) ∈ acts' → s = some addr →
      tk' = tk ∧ mk' = mk0 := by
  intro tk' acts' mk' s hts hacts hs
  subst hs
  rw [onlySlotFor, List.all_eq_true] at h
  have h1 : acts'.all (fun q => decide (q.2 = some addr → tk' = tk ∧ q.1 = mk0)) = true :=
    h (tk', some acts') hts
  rw [List.all_eq_true] at h1
  have h2 : decide ((some addr : Option Nat) = some addr → tk' = tk ∧ mk' = mk0) = true :=
    h1 (mk', some addr) hacts
  exact of_decide_eq_true h2 rfl

/-- If the registry path down to a slot yields a stored value, the path's
levels are actually present (needed to reason about the write-backs). -/
theorem slot_path {ls : ListenerSet} {ev : String} {tk mk0 : GKey} {s : Option Nat}
    (h : amGet (getAS (getTS ls ev) tk) mk0 = some s) :
    amGet ls ev = some (some (getTS ls ev)) ∧
      amGet (getTS ls ev) tk = some (some (getAS (getTS ls ev) tk)) := by
  constructor
  · rcases hev : amGet ls ev with _ | ts
    · rw [getTS, hev] at h ⊢
      rw [getAS, amGet] at h
      simp [amGet] at h
    · rcases ts with _ | ts
      · rw [getTS, hev] at h ⊢
        rw [getAS, amGet] at h
        simp [amGet] at h
      · rw [getTS, hev]
  · rcases htk : amGet (getTS ls ev) tk with _ | acts
    · rw [getAS, htk] at h
      simp [amGet] at h
    · rcases acts with _ | acts
      · rw [getAS, htk] at h
        simp [amGet] at h
      · rw [getAS, htk]

/-- After the suspended/removed slot is tombstoned, its record's address is
no longer live (assuming unique keys and unaliased record references). -/
theorem not_live_after_tombstone {ts0 : TargetSet} {acts0 : ActionSet}
    {tk mk0 : GKey} {addr : Nat}
    (hts : amGet ts0 tk = some (some acts0))
    (hndT : (ts0.map Prod.fst).Nodup) (hndA : (acts0.map Prod.fst).Nodup)
    (honly : onlySlotFor ts0 addr tk mk0 = true) :
    addr ∉ liveAddrsTS (amSet ts0 tk (some (amSet acts0 mk0 none))) := by
  intro h
  obtain ⟨tk', acts', hmem, hk, ha⟩ := mem_liveAddrsTS.mp h
  obtain ⟨mk', hmem', hk'⟩ := mem_liveAddrsAS.mp ha
  rcases mem_amSet_nodup ts0 tk tk' (some (amSet acts0 mk0 none)) (some acts') hndT hmem with
    ⟨heq, hv⟩ | ⟨hne, hmem2⟩
  · have hacts : acts' = amSet acts0 mk0 none := by
      injection hv
    subst hacts
    rcases mem_amSet_nodup acts0 mk0 mk' none (some addr) hndA hmem' with ⟨_, hv'⟩ | ⟨hne', hmem2'⟩
    · exact Option.noConfusion hv'
    · exact hne' (onlySlotFor_spec honly tk acts0 mk' (some addr)
        (amGet_mem ts0 tk (some acts0) hts) hmem2' rfl).2
  · exact hne (onlySlotFor_spec honly tk' acts' mk' (some addr) hmem2 hmem' rfl).1

/-! ### Heap lemmas -/

theorem heapSetXform_length (h : List EAction) (addr : Nat) (x : Val) :
    (addListener.heapSetXform h addr x).length = h.length := by
  induction h generalizing addr with
  | nil => rfl
  | cons a rest ih =>
    cases addr with
    | zero => rfl
    | succ n => simp [addListener.heapSetXform, ih]

theorem heapSetXform_get_self {h : List EAction} {addr : Nat} {old : EAction} (x : Val)
    (hg : h[addr]? = some old) :
    (addListener.heapSetXform h addr x)[addr]? = some { old with xform := x } := by
  induction h generalizing addr with
  | nil => simp at hg
  | cons a rest ih =>
    cases addr with
    | zero =>
      simp at hg
      subst hg
      simp [addListener.heapSetXform]
    | succ n =>
      simp at hg
      simp [addListener.heapSetXform, ih hg]

theorem get_append_length (l : List EAction) (x : EAction) :
    (l ++ [x])[l.length]? = some x := by
  induction l with
  | nil => rfl
  | cons a rest ih => simp [ih]

/-! ### Invocation lemmas -/

theorem invokeAction_ok {env : Env} {origin : Nat} {act : EAction} {params : List Val} {c : Call}
    (h : invokeAction env origin act params = Except.ok c) :
    c.origin = origin ∧ c.params = params ∧
      ((truthy act.xform = false ∧ c.xf = none) ∨
        (∃ x, act.xform = Val.vfn x ∧ c.xf = some x)) := by
  simp only [invokeAction] at h
  split at h
  next hx =>
    split at h
    next x heq =>
      split at h
      next hr => exact Except.noConfusion h
      next hr =>
        injection h with h
        subst h
        exact ⟨rfl, rfl, Or.inr ⟨x, heq, rfl⟩⟩
    next heq => exact Except.noConfusion h
  next hx =>
    split at h
    next f heq =>
      split at h
      next hr => exact Except.noConfusion h
      next hr =>
        injection h with h
        subst h
        exact ⟨rfl, rfl, Or.inl ⟨by simpa using hx, rfl⟩⟩
    next heq => exact Except.noConfusion h

/-! ### Replay-loop lemmas -/

theorem runActions_append (env : Env) (heap : List EAction) (params : List Val)
    (l1 l2 : List Nat) (s : List Call) :
    runActions env heap params (l1 ++ l2) s =
      match runActions env heap params l1 s with
      | (cs, none) => runActions env heap params l2 cs
      | (cs, some e) => (cs, some e) := by
  induction l1 generalizing s with
  | nil => simp [runActions]
  | cons addr rest ih =>
    rcases hg : heap[addr]? with _ | act
    · simp only [List.cons_append, runActions, hg]
      exact ih s
    · rcases hi : invokeAction env addr act params with e | c
      · simp [List.cons_append, runActions, hg, hi]
      · simp only [List.cons_append, runActions, hg, hi]
        exact ih (s ++ [c])

theorem runActions_ok (env : Env) (heap : List EAction) (params : List Val)
    (l : List Nat) (s : List Call)
    (h : ∀ a ∈ l, ∃ act c, heap[a]? = some act ∧ invokeAction env a act params = Except.ok c) :
    ∃ cs, runActions env heap params l s = (s ++ cs, none) ∧
      cs.map (fun c => c.origin) = l ∧ ∀ c ∈ cs, c.params = params := by
  induction l generalizing s with
  | nil => exact ⟨[], by simp [runActions]⟩
  | cons addr rest ih =>
    obtain ⟨act, c, hg, hi⟩ := h addr (List.mem_cons_self _ _)
    obtain ⟨cs, hrun, horig, hparams⟩ := ih (s ++ [c]) (fun a ha => h a (List.mem_cons_of_mem _ ha))
    refine ⟨c :: cs, ?_, ?_, ?_⟩
    · have hstep : runActions env heap params (addr :: rest) s =
          runActions env heap params rest (s ++ [c]) := by
        simp only [runActions, hg, hi]
      rw [hstep, hrun, List.append_assoc]
      rfl
    · obtain ⟨ho, -, -⟩ := invokeAction_ok hi
      simp [ho, horig]
    · intro c' hc'
      rcases List.mem_cons.mp hc' with rfl | hc'
      · exact (invokeAction_ok hi).2.1
      · exact hparams c' hc'

theorem runActions_err (env : Env) (heap : List EAction) (params : List Val)
    (l1 : List Nat) (addr : Nat) (l2 : List Nat) (s : List Call) (act : EAction) (e : EmErr)
    (h1 : ∀ a ∈ l1, ∃ act' c, heap[a]? = some act' ∧ invokeAction env a act' params = Except.ok c)
    (hg : heap[addr]? = some act) (hb : invokeAction env addr act params = Except.error e) :
    ∃ cs, runActions env heap params (l1 ++ addr :: l2) s = (s ++ cs, some e) ∧
      cs.map (fun c => c.origin) = l1 := by
  induction l1 generalizing s with
  | nil =>
    refine ⟨[], ?_, rfl⟩
    simp [runActions, hg, hb]
  | cons a rest ih =>
    obtain ⟨act', c, hg', hi⟩ := h1 a (List.mem_cons_self _ _)
    obtain ⟨cs, hrun, horig⟩ := ih (s ++ [c]) (fun a' ha' => h1 a' (List.mem_cons_of_mem _ ha'))
    refine ⟨c :: cs, ?_, ?_⟩
    · have hstep : runActions env heap params ((a :: rest) ++ addr :: l2) s =
          runActions env heap params (rest ++ addr :: l2) (s ++ [c]) := by
        simp only [List.cons_append, runActions, hg', hi]
        rfl
      rw [hstep, hrun, List.append_assoc]
      rfl
    · obtain ⟨ho, -, -⟩ := invokeAction_ok hi
      simp [ho, horig]

theorem runActions_mem (env : Env) (heap : List EAction) (params : List Val)
    (l : List Nat) (s : List Call) :
    ∀ c ∈ (runActions env heap params l s).1, c ∈ s ∨
      (c.origin ∈ l ∧ c.params = params ∧
        ∃ act, heap[c.origin]? = some act ∧ invokeAction env c.origin act params = Except.ok c) := by
  induction l generalizing s with
  | nil =>
    intro c hc
    exact Or.inl (by simpa [runActions] using hc)
  | cons addr rest ih =>
    intro c hc
    rcases hg : heap[addr]? with _ | act
    · simp only [runActions, hg] at hc
      rcases ih s c hc with h | ⟨h1, h2, h3⟩
      · exact Or.inl h
      · exact Or.inr ⟨List.mem_cons_of_mem _ h1, h2, h3⟩
    · rcases hi : invokeAction env addr act params with e | c0
      · simp only [runActions, hg, hi] at hc
        exact Or.inl hc
      · simp only [runActions, hg, hi] at hc
        rcases ih (s ++ [c0]) c hc with h | ⟨h1, h2, h3⟩
        · rcases List.mem_append.mp h with h | h
          · exact Or.inl h
          · have hc0 : c = c0 := by simpa using h
            subst hc0
            obtain ⟨ho, hp, -⟩ := invokeAction_ok hi
            exact Or.inr ⟨by simp [ho], hp, act, by rwa [ho], by rwa [ho]⟩
        · exact Or.inr ⟨List.mem_cons_of_mem _ h1, h2, h3⟩

/-! ### Simulation: `sendEvent` is the replay loop over the live addresses -/

theorem iterActions_sendCb_ne_early (heap : List EAction) (env : Env) (params : List Val)
    (acts : ActionSet) (s s' : List Call) :
    iterActions heap acts (sendCb env params) s ≠ IterOut.early s' := by
  induction acts generalizing s with
  | nil => simp [iterActions]
  | cons p rest ih =>
    obtain ⟨mk0, slot⟩ := p
    by_cases hmk : mk0 = GKey.sentinel
    · simpa [iterActions, hmk] using ih s
    · rcases slot with _ | addr
      · simpa [iterActions, hmk] using ih s
      · rcases hg : heap[addr]? with _ | act
        · simpa [iterActions, hmk, hg] using ih s
        · rcases hi : invokeAction env addr act params with e | c
          · simp [iterActions, hmk, hg, sendCb, hi]
          · simpa [iterActions, hmk, hg, sendCb, hi] using ih (s ++ [c])

theorem iterActions_sendCb (heap : List EAction) (env : Env) (params : List Val)
    (acts : ActionSet) (s : List Call) :
    iterOutPair (iterActions heap acts (sendCb env params) s) =
      runActions env heap params (liveAddrsAS acts) s := by
  induction acts generalizing s with
  | nil => simp [iterActions, liveAddrsAS, runActions, iterOutPair]
  | cons p rest ih =>
    obtain ⟨mk0, slot⟩ := p
    by_cases hmk : mk0 = GKey.sentinel
    · simpa [iterActions, liveAddrsAS, contribA, hmk] using ih s
    · rcases slot with _ | addr
      · simpa [iterActions, liveAddrsAS, contribA, hmk] using ih s
      · rcases hg : heap[addr]? with _ | act
        · simp only [iterActions, liveAddrsAS, contribA, if_neg hmk, hg]
          rw [ih s]
          simp [runActions, hg]
        · rcases hi : invokeAction env addr act params with e | c
          · simp only [iterActions, liveAddrsAS, contribA, if_neg hmk, hg, sendCb, hi]
            simp [iterOutPair, runActions, hg, hi]
          · simp only [iterActions, liveAddrsAS, contribA, if_neg hmk, hg, sendCb, hi]
            rw [ih (s ++ [c])]
            simp [runActions, hg, hi]

theorem iterTargets_sendCb (heap : List EAction) (env : Env) (params : List Val)
    (ts : TargetSet) (s : List Call) :
    iterOutPair (iterTargets heap ts (sendCb env params) s) =
      runActions env heap params (liveAddrsTS ts) s := by
  induction ts generalizing s with
  | nil => simp [iterTargets, liveAddrsTS, runActions, iterOutPair]
  | cons p rest ih =>
    obtain ⟨tk0, mas⟩ := p
    by_cases htk : tk0 = GKey.sentinel
    · simpa [iterTargets, liveAddrsTS, contribT, htk] using ih s
    · rcases mas with _ | acts
      · simpa [iterTargets, liveAddrsTS, contribT, htk] using ih s
      · rcases ho : iterActions heap acts (sendCb env params) s with s2 | s2 | ⟨s2, e⟩
        · have h1 := iterActions_sendCb heap env params acts s
          rw [ho] at h1
          simp only [iterOutPair] at h1
          simp only [iterTargets, liveAddrsTS, contribT, if_neg htk, ho]
          rw [runActions_append, ← h1]
          exact ih s2
        · exact absurd ho (iterActions_sendCb_ne_early heap env params acts s s2)
        · have h1 := iterActions_sendCb heap env params acts s
          rw [ho] at h1
          simp only [iterOutPair] at h1
          simp only [iterTargets, liveAddrsTS, contribT, if_neg htk, ho]
          rw [runActions_append, ← h1]
          rfl

theorem sendEvent_eq_runActions (env : Env) (st : EState) (objV : Val) (ev : String)
    (args : List Val) :
    sendEvent env st objV ev args =
      runActions env st.heap (objV :: Val.vstr ev :: args)
        (liveAddrs (targetSetFor st.listeners ev)) [] := by
  rw [sendEvent]
  rcases h : targetSetFor st.listeners ev with _ | ts
  · simp [iterateSet, iterOutPair, liveAddrs, runActions]
  · simp only [iterateSet, liveAddrs]
    exact iterTargets_sendCb st.heap env (objV :: Val.vstr ev :: args) ts []

/-! ### Capture: `deferEvent` snapshots exactly the live addresses -/

theorem iterActions_pushCb (heap : List EAction) (acts : ActionSet) (s : List Nat)
    (hv : ∀ a ∈ liveAddrsAS acts, (heap[a]?).isSome = true) :
    iterActions heap acts (fun s a _ => CbRes.cont (s ++ [a])) s =
      IterOut.finished (s ++ liveAddrsAS acts) := by
  induction acts generalizing s with
  | nil => simp [iterActions, liveAddrsAS]
  | cons p rest ih =>
    obtain ⟨mk0, slot⟩ := p
    by_cases hmk : mk0 = GKey.sentinel
    · simp only [liveAddrsAS, contribA, if_pos hmk] at hv ⊢
      simpa [iterActions, hmk] using ih s hv
    · rcases slot with _ | addr
      · simp only [liveAddrsAS, contribA, if_neg hmk] at hv ⊢
        simpa [iterActions, hmk] using ih s hv
      · have hvh : (heap[addr]?).isSome = true := by
          refine hv addr ?_
          simp [liveAddrsAS, contribA, if_neg hmk]
        rcases hg : heap[addr]? with _ | act
        · rw [hg] at hvh
          simp at hvh
        · have hrest : ∀ a ∈ liveAddrsAS rest, (heap[a]?).isSome = true := by
            intro a ha
            refine hv a ?_
            simp [liveAddrsAS, contribA, if_neg hmk, ha]
          simp only [iterActions, if_neg hmk, hg, ih (s ++ [addr]) hrest]
          simp [liveAddrsAS, contribA, if_neg hmk]

theorem iterTargets_pushCb (heap : List EAction) (ts : TargetSet) (s : List Nat)
    (hv : ∀ a ∈ liveAddrsTS ts, (heap[a]?).isSome = true) :
    iterTargets heap ts (fun s a _ => CbRes.cont (s ++ [a])) s =
      IterOut.finished (s ++ liveAddrsTS ts) := by
  induction ts generalizing s with
  | nil => simp [iterTargets, liveAddrsTS]
  | cons p rest ih =>
    obtain ⟨tk0, mas⟩ := p
    by_cases htk : tk0 = GKey.sentinel
    · simp only [liveAddrsTS, contribT, if_pos htk] at hv ⊢
      simpa [iterTargets, htk] using ih s hv
    · rcases mas with _ | acts
      · simp only [liveAddrsTS, contribT, if_neg htk] at hv ⊢
        simpa [iterTargets, htk] using ih s hv
      · have hvA : ∀ a ∈ liveAddrsAS acts, (heap[a]?).isSome = true := by
          intro a ha
          refine hv a ?_
          simp [liveAddrsTS, contribT, if_neg htk, ha]
        have hvR : ∀ a ∈ liveAddrsTS rest, (heap[a]?).isSome = true := by
          intro a ha
          refine hv a ?_
          simp [liveAddrsTS, contribT, if_neg htk, ha]
        simp only [iterTargets, if_neg htk, iterActions_pushCb heap acts s hvA,
          ih (s ++ liveAddrsAS acts) hvR]
        simp [liveAddrsTS, contribT, if_neg htk]

theorem deferEvent_actions (st : EState) (objV : Val) (ev : String) (args : List Val)
    (hv : ∀ a ∈ liveAddrs (targetSetFor st.listeners ev), (st.heap[a]?).isSome = true) :
    (deferEvent st objV ev args).actions = liveAddrs (targetSetFor st.listeners ev) := by
  rw [deferEvent]
  rcases h : targetSetFor st.listeners ev with _ | ts
  · simp [iterateSet, iterOutState, liveAddrs]
  · rw [h, liveAddrs] at hv
    simp only [iterateSet, liveAddrs]
    rw [iterTargets_pushCb st.heap ts [] hv]
    simp [iterOutState]

/-! ### Probe: `hasListeners` finds a live, valid action iff one exists -/

theorem iterActions_stopCb_ne_failed (heap : List EAction) (acts : ActionSet)
    (u u2 : Unit) (e : EmErr) :
    iterActions heap acts (fun (s : Unit) _ _ => CbRes.stop s) u ≠ IterOut.failed u2 e := by
  induction acts with
  | nil => simp [iterActions]
  | cons p rest ih =>
    obtain ⟨mk0, slot⟩ := p
    by_cases hmk : mk0 = GKey.sentinel
    · simpa [iterActions, hmk] using ih
    · rcases slot with _ | addr
      · simpa [iterActions, hmk] using ih
      · rcases hg : heap[addr]? with _ | act
        · simpa [iterActions, hmk, hg] using ih
        · simp [iterActions, hmk, hg]

theorem iterActions_stopCb (heap : List EAction) (acts : ActionSet) (u : Unit) :
    iterBool (iterActions heap acts (fun (s : Unit) _ _ => CbRes.stop s) u) = true ↔
      ∃ a ∈ liveAddrsAS acts, (heap[a]?).isSome = true := by
  induction acts with
  | nil => simp [iterActions, liveAddrsAS, iterBool]
  | cons p rest ih =>
    obtain ⟨mk0, slot⟩ := p
    by_cases hmk : mk0 = GKey.sentinel
    · simp only [iterActions, if_pos hmk, liveAddrsAS, contribA]
      simpa [hmk] using ih
    · rcases slot with _ | addr
      · simp only [iterActions, if_neg hmk, liveAddrsAS, contribA]
        simpa [hmk] using ih
      · rcases hg : heap[addr]? with _ | act
        · simp only [iterActions, if_neg hmk, hg, liveAddrsAS, contribA, if_neg hmk]
          rw [ih]
          constructor
          · rintro ⟨a, ha, hs⟩
            exact ⟨a, List.mem_append.mpr (Or.inr ha), hs⟩
          · rintro ⟨a, ha, hs⟩
            rcases List.mem_append.mp ha with ha | ha
            · have haa : a = addr := by simpa using ha
              subst haa
              rw [hg] at hs
              simp at hs
            · exact ⟨a, ha, hs⟩
        · simp only [iterActions, if_neg hmk, hg]
          constructor
          · intro _
            refine ⟨addr, ?_, ?_⟩
            · simp [liveAddrsAS, contribA, if_neg hmk]
            · simp [hg]
          · intro _
            rfl

theorem iterTargets_stopCb (heap : List EAction) (ts : TargetSet) (u : Unit) :
    iterBool (iterTargets heap ts (fun (s : Unit) _ _ => CbRes.stop s) u) = true ↔
      ∃ a ∈ liveAddrsTS ts, (heap[a]?).isSome = true := by
  induction ts with
  | nil => simp [iterTargets, liveAddrsTS, iterBool]
  | cons p rest ih =>
    obtain ⟨tk0, mas⟩ := p
    by_cases htk : tk0 = GKey.sentinel
    · simp only [iterTargets, if_pos htk, liveAddrsTS, contribT]
      simpa [htk] using ih
    · rcases mas with _ | acts
      · simp only [iterTargets, if_neg htk, liveAddrsTS, contribT]
        simpa [htk] using ih
      · rcases ho : iterActions heap acts (fun (s : Unit) _ _ => CbRes.stop s) u with u2 | u2 | ⟨u2, e⟩
        · have h1 := iterActions_stopCb heap acts u
          rw [ho] at h1
          simp only [iterBool] at h1
          simp only [iterTargets, if_neg htk, ho, liveAddrsTS, contribT]
          rw [ih]
          constructor
          · rintro ⟨a, ha, hs⟩
            refine ⟨a, ?_, hs⟩
            exact List.mem_append.mpr (Or.inr ha)
          · rintro ⟨a, ha, hs⟩
            rcases List.mem_append.mp ha with ha | ha
            · exact absurd (h1.mpr ⟨a, ha, hs⟩) (by simp)
            · exact ⟨a, ha, hs⟩
        · have h1 := iterActions_stopCb heap acts u
          rw [ho] at h1
          simp only [iterBool, true_iff] at h1
          obtain ⟨a, ha, hs⟩ := h1
          simp only [iterTargets, if_neg htk, ho, liveAddrsTS, contribT]
          constructor
          · intro _
            refine ⟨a, ?_, hs⟩
            exact List.mem_append.mpr (Or.inl ha)
          · intro _
            rfl
        · exact absurd ho (iterActions_stopCb_ne_failed heap acts u u2 e)

theorem hasListeners_true_iff (st : EState) (ev : String)
    (hv : ∀ a ∈ liveAddrs (targetSetFor st.listeners ev), (st.heap[a]?).isSome = true) :
    (hasListeners st ev).1 = true ↔ liveAddrs (targetSetFor st.listeners ev) ≠ [] := by
  rw [hasListeners]
  rcases h : targetSetFor st.listeners ev with _ | ts
  · simp [iterateSet, iterBool, liveAddrs]
  · rw [h, liveAddrs] at hv
    simp only [iterateSet, liveAddrs]
    by_cases hb : iterBool (iterTargets st.heap ts (fun (s : Unit) _ _ => CbRes.stop s) ()) = true
    · rw [if_pos hb]
      obtain ⟨a, ha, -⟩ := (iterTargets_stopCb st.heap ts ()).mp hb
      constructor
      · intro _ hl
        rw [hl] at ha
        exact absurd ha (List.not_mem_nil a)
      · intro _
        rfl
    · rw [if_neg hb]
      have h1 : ¬ ∃ a ∈ liveAddrsTS ts, (st.heap[a]?).isSome = true :=
        fun hex => hb ((iterTargets_stopCb st.heap ts ()).mpr hex)
      constructor
      · intro hc
        exact absurd hc (by simp)
      · intro hne
        rcases hl : liveAddrsTS ts with _ | ⟨a, rest⟩
        · exact absurd hl hne
        · have ha : a ∈ liveAddrsTS ts := by
            rw [hl]
            exact List.mem_cons_self _ _
          exact absurd ⟨a, ha, hv a ha⟩ h1

/-! ### Registry-surgery lemmas -/

/-- A live slot contributes its address to the live list. -/
theorem slot_live_mem {ls : ListenerSet} {ev : String} {tk mk0 : GKey} {addr : Nat}
    (hreg : slotAt ls ev tk mk0 = some (some addr))
    (htk : tk ≠ GKey.sentinel) (hmk : mk0 ≠ GKey.sentinel) :
    addr ∈ liveAddrs (targetSetFor ls ev) := by
  obtain ⟨hev, htk'⟩ := slot_path hreg
  have hts : targetSetFor ls ev = some (getTS ls ev) := by
    rw [targetSetFor, hev]
  rw [hts, liveAddrs]
  refine mem_liveAddrsTS.mpr ⟨tk, getAS (getTS ls ev) tk, amGet_mem _ _ _ htk', htk, ?_⟩
  exact mem_liveAddrsAS.mpr ⟨mk0, amGet_mem _ _ _ hreg, hmk⟩

/-- Setting a slot in an all-dead action set yields a single live
address. -/
theorem liveAddrsAS_amSet_of_empty {acts : ActionSet} {mk0 : GKey} {addr : Nat}
    (he : liveAddrsAS acts = []) (hmk : mk0 ≠ GKey.sentinel) :
    liveAddrsAS (amSet acts mk0 (some addr)) = [addr] := by
  induction acts with
  | nil => simp [amSet, liveAddrsAS, contribA, if_neg hmk]
  | cons p rest ih =>
    obtain ⟨k, s⟩ := p
    rw [liveAddrsAS] at he
    have hc : contribA (k, s) = [] := by
      rcases List.append_eq_nil.mp he with ⟨h1, _⟩
      exact h1
    have hr : liveAddrsAS rest = [] := by
      rcases List.append_eq_nil.mp he with ⟨_, h2⟩
      exact h2
    by_cases hk : mk0 = k
    · subst hk
      simp only [amSet, if_pos rfl, liveAddrsAS, contribA, if_neg hmk, hr]
      rfl
    · simp only [amSet, if_neg hk, liveAddrsAS, hc, ih hr]
      simp [hc]

/-- Setting a target entry in an all-dead target set yields exactly the new
entry's live addresses. -/
theorem liveAddrsTS_amSet_of_empty {ts : TargetSet} {tk : GKey} {acts : ActionSet}
    (he : liveAddrsTS ts = []) (htk : tk ≠ GKey.sentinel) :
    liveAddrsTS (amSet ts tk (some acts)) = liveAddrsAS acts := by
  induction ts with
  | nil => simp [amSet, liveAddrsTS, contribT, if_neg htk]
  | cons p rest ih =>
    obtain ⟨k, s⟩ := p
    rw [liveAddrsTS] at he
    have hc : contribT (k, s) = [] := by
      rcases List.append_eq_nil.mp he with ⟨h1, _⟩
      exact h1
    have hr : liveAddrsTS rest = [] := by
      rcases List.append_eq_nil.mp he with ⟨_, h2⟩
      exact h2
    by_cases hk : tk = k
    · subst hk
      simp only [amSet, if_pos rfl, liveAddrsTS, contribT, if_neg htk, hr]
      simp
    · simp only [amSet, if_neg hk, liveAddrsTS, hc, ih hr]
      simp [hc]

/-- Replacing an entry by one with the same (empty) contribution preserves
the live list. -/
theorem liveAddrsTS_amSet_dead {ts : TargetSet} {tk : GKey} {w w' : Option ActionSet}
    (hget : amGet ts tk = some w)
    (hw : contribT (tk, w) = []) (hw' : contribT (tk, w') = []) :
    liveAddrsTS (amSet ts tk w') = liveAddrsTS ts := by
  induction ts with
  | nil => simp [amGet] at hget
  | cons p rest ih =>
    obtain ⟨k, s⟩ := p
    by_cases hk : tk = k
    · subst hk
      rw [amGet, if_pos rfl] at hget
      injection hget with hget
      subst hget
      simp only [amSet, if_pos rfl, liveAddrsTS]
      rw [hw, hw']
    · rw [amGet, if_neg hk] at hget
      simp only [amSet, if_neg hk, liveAddrsTS, ih hget]

/-! ### Write-back round trips -/

theorem getTS_amSet_self (ls : ListenerSet) (ev : String) (x : TargetSet) :
    getTS (amSet ls ev (some x)) ev = x := by
  rw [getTS, amGet_amSet_self]

theorem getAS_amSet_self (ts : TargetSet) (tk : GKey) (x : ActionSet) :
    getAS (amSet ts tk (some x)) tk = x := by
  rw [getAS, amGet_amSet_self]

theorem targetSetFor_amSet_self (ls : ListenerSet) (ev : String) (x : TargetSet) :
    targetSetFor (amSet ls ev (some x)) ev = some x := by
  rw [targetSetFor, amGet_amSet_self]

/-- While a listener is suspended (or tombstoned by `removeListener`),
`sendEvent` never reaches its record (its address being referenced by no
other slot). -/
theorem tombstoned_fire_clean (env : Env) (st : EState) (objV2 : Val) (ev : String)
    (tA mA : Val) (args : List Val) (addr : Nat)
    (hreg : slotAt st.listeners ev (GKey.g (normalizeArgs tA mA).1)
      (GKey.g (normalizeArgs tA mA).2) = some (some addr))
    (hndT : ((getTS st.listeners ev).map Prod.fst).Nodup)
    (hndA : ((getAS (getTS st.listeners ev) (GKey.g (normalizeArgs tA mA).1)).map Prod.fst).Nodup)
    (honly : onlySlotFor (getTS st.listeners ev) addr (GKey.g (normalizeArgs tA mA).1)
      (GKey.g (normalizeArgs tA mA).2) = true) :
    ∀ c ∈ (sendEvent env (suspendMid st ev tA mA) objV2 ev args).1, c.origin ≠ addr := by
  intro c hc
  rw [sendEvent_eq_runActions] at hc
  rcases runActions_mem env (suspendMid st ev tA mA).heap (objV2 :: Val.vstr ev :: args) _ [] c hc
    with h | ⟨h1, -, -⟩
  · exact absurd h (List.not_mem_nil c)
  · intro hca
    subst hca
    rw [slotAt] at hreg
    obtain ⟨hev, hts⟩ := slot_path hreg
    have hmid : (suspendMid st ev tA mA).listeners =
        amSet st.listeners ev (some (amSet (getTS st.listeners ev)
          (GKey.g (normalizeArgs tA mA).1)
          (some (amSet (getAS (getTS st.listeners ev) (GKey.g (normalizeArgs tA mA).1))
            (GKey.g (normalizeArgs tA mA).2) none)))) := rfl
    rw [hmid, targetSetFor_amSet_self, liveAddrs] at h1
    exact not_live_after_tombstone hts hndT hndA honly h1

/-! ### Concrete scenario states -/

/-- The empty object: no listeners yet. -/
def st0E : EState := { heap := [], listeners := [] }

/-- One listener L1 = (target `vobj 1`, method `vfn 10`) on event "e". -/
def stOne : EState :=
  okState (addListener st0E (Val.vobj 0) ("e") (Val.vobj 1) (Val.vfn 10) Val.vnull)

/-- L1 plus a second listener L2 = (target `vobj 2`, method `vfn 20`). -/
def stTwo : EState :=
  okState (addListener stOne (Val.vobj 0) ("e") (Val.vobj 2) (Val.vfn 20) Val.vnull)

/-- The deferred closure captured between the two registrations
(the section-8 scenario of the spec), with arguments `(1, 2)`. -/
def dOne : Deferred := deferEvent stOne (Val.vobj 0) ("e") [Val.vnum 1, Val.vnum 2]

/-- An environment in which only L2's method (function 20) raises. -/
def envE : Env :=
  { resolve := fun _ _ => Val.vnull, raises := fun f => f == 20 }

/-! ### Claim theorems -/

/-- Claim C1: for every object, event name and registered listener set, if
no listener mutates the registry during the fire (and every invocation
completes, i.e. no listener raises), `sendEvent` invokes every live
(non-tombstoned, non-sentinel) action exactly once for that call, in
iteration order: the trace's origins are exactly the live addresses, no
error occurs, and no origin repeats. -/
theorem sendEvent_fires_each_live_action_exactly_once
    (env : Env) (st : EState) (objV : Val) (ev : String) (args : List Val)
    (hok : ∀ a ∈ liveAddrs (targetSetFor st.listeners ev), ∃ act c, st.heap[a]? = some act ∧
      invokeAction env a act (objV :: Val.vstr ev :: args) = Except.ok c)
    (hnd : (liveAddrs (targetSetFor st.listeners ev)).Nodup) :
    (sendEvent env st objV ev args).1.map (fun c => c.origin) =
        liveAddrs (targetSetFor st.listeners ev) ∧
      (sendEvent env st objV ev args).2 = none ∧
      ((sendEvent env st objV ev args).1.map (fun c => c.origin)).Nodup := by
  obtain ⟨cs, hrun, horig, -⟩ := runActions_ok env st.heap (objV :: Val.vstr ev :: args)
    (liveAddrs (targetSetFor st.listeners ev)) [] hok
  rw [sendEvent_eq_runActions, hrun]
  refine ⟨?_, rfl, ?_⟩
  · rw [List.nil_append]
    exact horig
  · rw [List.nil_append, horig]
    exact hnd

/-- Witness for C1 at the two-listener state with a benign environment. -/
theorem sendEvent_fires_each_live_action_exactly_once_witness :
    (sendEvent env0 stTwo (Val.vobj 0) ("e") []).1.map (fun c => c.origin) =
        liveAddrs (targetSetFor stTwo.listeners ("e")) ∧
      (sendEvent env0 stTwo (Val.vobj 0) ("e") []).2 = none ∧
      ((sendEvent env0 stTwo (Val.vobj 0) ("e") []).1.map (fun c => c.origin)).Nodup := by
  refine sendEvent_fires_each_live_action_exactly_once env0 stTwo (Val.vobj 0) ("e") [] ?_ ?_
  · intro a ha
    have hl : liveAddrs (targetSetFor stTwo.listeners ("e")) = [0, 1] := by decide
    rw [hl] at ha
    rcases List.mem_cons.mp ha with rfl | ha
    · refine ⟨{ target := Val.vobj 1, method := Val.vfn 10, xform := Val.vnull },
        { origin := 0, receiver := Val.vobj 1, mth := Val.vfn 10, xf := none,
          params := [Val.vobj 0, Val.vstr ("e")] }, by decide, rfl⟩
    · rcases List.mem_cons.mp ha with rfl | ha
      · refine ⟨{ target := Val.vobj 2, method := Val.vfn 20, xform := Val.vnull },
          { origin := 1, receiver := Val.vobj 2, mth := Val.vfn 20, xf := none,
            params := [Val.vobj 0, Val.vstr ("e")] }, by decide, rfl⟩
      · exact absurd ha (List.not_mem_nil a)
  · have hl : liveAddrs (targetSetFor stTwo.listeners ("e")) = [0, 1] := by decide
    rw [hl]
    decide

/-- Claim C9: every call `sendEvent(obj, eventName, ...args)` makes passes
the full `arguments` list — the firing object first, the event name
second, then the extra arguments — as the invoked method's argument list;
when the action carries a transform, the transform (recorded in `Call.xf`)
is the function invoked, receiving this same full list as its third
parameter (see `Call`). -/
theorem sendEvent_passes_full_params
    (env : Env) (st : EState) (objV : Val) (ev : String) (args : List Val) :
    ∀ c ∈ (sendEvent env st objV ev args).1,
      c.params = objV :: Val.vstr ev :: args ∧
      ∃ act, st.heap[c.origin]? = some act ∧
        invokeAction env c.origin act (objV :: Val.vstr ev :: args) = Except.ok c ∧
        ((truthy act.xform = false ∧ c.xf = none) ∨
          (∃ x, act.xform = Val.vfn x ∧ c.xf = some x)) := by
  intro c hc
  rw [sendEvent_eq_runActions] at hc
  rcases runActions_mem env st.heap (objV :: Val.vstr ev :: args) _ [] c hc
    with h | ⟨-, h2, act, hg, hi⟩
  · exact absurd h (List.not_mem_nil c)
  · exact ⟨h2, act, hg, hi, (invokeAction_ok hi).2.2⟩

/-- The first call of the two-listener fire with one extra argument, used
as the concrete instance for C9. -/
def cW : Call :=
  { origin := 0, receiver := Val.vobj 1, mth := Val.vfn 10, xf := none,
    params := [Val.vobj 0, Val.vstr ("e"), Val.vnum 7] }

/-- Witness for C9: the first call of the two-listener fire carries the
full parameter list. -/
theorem sendEvent_passes_full_params_witness :
    cW.params = Val.vobj 0 :: Val.vstr ("e") :: [Val.vnum 7] ∧
      ∃ act, stTwo.heap[cW.origin]? = some act ∧
        invokeAction env0 cW.origin act (Val.vobj 0 :: Val.vstr ("e") :: [Val.vnum 7]) =
          Except.ok cW ∧
        ((truthy act.xform = false ∧ cW.xf = none) ∨
          (∃ x, act.xform = Val.vfn x ∧ cW.xf = some x)) :=
  sendEvent_passes_full_params env0 stTwo (Val.vobj 0) ("e") [Val.vnum 7] cW (by decide)

/-- Claim C6: if the live action list splits as `l1 ++ addr :: l2` where
every invocation in `l1` succeeds and the action at `addr` raises `e`,
then `sendEvent` propagates exactly `e` (neither caught nor wrapped) and
invokes only the actions of `l1` — nothing after the raising one. -/
theorem sendEvent_error_aborts_and_propagates
    (env : Env) (st : EState) (objV : Val) (ev : String) (args : List Val)
    (l1 l2 : List Nat) (addr : Nat) (act : EAction) (e : EmErr)
    (hsplit : liveAddrs (targetSetFor st.listeners ev) = l1 ++ addr :: l2)
    (hok : ∀ a ∈ l1, ∃ act' c, st.heap[a]? = some act' ∧
      invokeAction env a act' (objV :: Val.vstr ev :: args) = Except.ok c)
    (hg : st.heap[addr]? = some act)
    (hb : invokeAction env addr act (objV :: Val.vstr ev :: args) = Except.error e) :
    (sendEvent env st objV ev args).2 = some e ∧
      (sendEvent env st objV ev args).1.map (fun c => c.origin) = l1 := by
  obtain ⟨cs, hrun, horig⟩ := runActions_err env st.heap (objV :: Val.vstr ev :: args)
    l1 addr l2 [] act e hok hg hb
  rw [sendEvent_eq_runActions, hsplit, hrun]
  refine ⟨rfl, ?_⟩
  rw [List.nil_append]
  exact horig

/-- Witness for C6: with L2's method raising, the fire performs exactly
L1's call and surfaces L2's error. -/
theorem sendEvent_error_aborts_and_propagates_witness :
    (sendEvent envE stTwo (Val.vobj 0) ("e") []).2 = some (EmErr.listenerError 20) ∧
      (sendEvent envE stTwo (Val.vobj 0) ("e") []).1.map (fun c => c.origin) = [0] :=
  sendEvent_error_aborts_and_propagates envE stTwo (Val.vobj 0) ("e") [] [0] [] 1
    { target := Val.vobj 2, method := Val.vfn 20, xform := Val.vnull }
    (EmErr.listenerError 20) (by decide)
    (by
      intro a ha
      have haa : a = 0 := by
        rcases List.mem_cons.mp ha with rfl | h
        · rfl
        · exact absurd h (List.not_mem_nil a)
      subst haa
      exact ⟨{ target := Val.vobj 1, method := Val.vfn 10, xform := Val.vnull },
        { origin := 0, receiver := Val.vobj 1, mth := Val.vfn 10, xf := none,
          params := [Val.vobj 0, Val.vstr ("e")] }, by decide, rfl⟩)
    (by decide) rfl

/-- Claim C2: the closure returned by `deferEvent` captures exactly the
actions live at capture time together with the original arguments;
whatever heap it later replays against, it only ever invokes snapshotted
actions (so listeners registered after the capture, which live at fresh
addresses, are never invoked), always with the captured arguments.  In the
spec's section-8 scenario — register L1, defer with `(1, 2)`, register L2,
invoke the closure — only L1 runs, with arguments `(1, 2)`. -/
theorem deferEvent_snapshot_decoupled
    (env : Env) (st : EState) (objV : Val) (ev : String) (args : List Val)
    (hv : ∀ a ∈ liveAddrs (targetSetFor st.listeners ev), (st.heap[a]?).isSome = true) :
    (deferEvent st objV ev args).actions = liveAddrs (targetSetFor st.listeners ev) ∧
    (deferEvent st objV ev args).params = objV :: Val.vstr ev :: args ∧
    (∀ heap2 : List EAction, ∀ c ∈ (runDeferred env heap2 (deferEvent st objV ev args)).1,
        c.origin ∈ liveAddrs (targetSetFor st.listeners ev) ∧
        c.params = objV :: Val.vstr ev :: args) ∧
    runDeferred env0 stTwo.heap dOne =
      ([{ origin := 0, receiver := Val.vobj 1, mth := Val.vfn 10, xf := none,
          params := [Val.vobj 0, Val.vstr ("e"), Val.vnum 1, Val.vnum 2] }], none) := by
  refine ⟨deferEvent_actions st objV ev args hv, rfl, ?_, by decide⟩
  intro heap2 c hc
  rw [runDeferred] at hc
  rcases runActions_mem env heap2 (deferEvent st objV ev args).params
      (deferEvent st objV ev args).actions [] c hc with h | ⟨h1, h2, -⟩
  · exact absurd h (List.not_mem_nil c)
  · rw [deferEvent_actions st objV ev args hv] at h1
    exact ⟨h1, h2⟩

/-- Witness for C2 at the one-listener capture state. -/
theorem deferEvent_snapshot_decoupled_witness :
    (deferEvent stOne (Val.vobj 0) ("e") [Val.vnum 1, Val.vnum 2]).actions =
        liveAddrs (targetSetFor stOne.listeners ("e")) ∧
    (deferEvent stOne (Val.vobj 0) ("e") [Val.vnum 1, Val.vnum 2]).params =
        Val.vobj 0 :: Val.vstr ("e") :: [Val.vnum 1, Val.vnum 2] ∧
    (∀ heap2 : List EAction,
      ∀ c ∈ (runDeferred env0 heap2
          (deferEvent stOne (Val.vobj 0) ("e") [Val.vnum 1, Val.vnum 2])).1,
        c.origin ∈ liveAddrs (targetSetFor stOne.listeners ("e")) ∧
        c.params = Val.vobj 0 :: Val.vstr ("e") :: [Val.vnum 1, Val.vnum 2]) ∧
    runDeferred env0 stTwo.heap dOne =
      ([{ origin := 0, receiver := Val.vobj 1, mth := Val.vfn 10, xf := none,
          params := [Val.vobj 0, Val.vstr ("e"), Val.vnum 1, Val.vnum 2] }], none) :=
  deferEvent_snapshot_decoupled env0 stOne (Val.vobj 0) ("e") [Val.vnum 1, Val.vnum 2] (by decide)
/-- `addListener` on an already-live slot: the record's `xform` is
overwritten in place on the heap; the write-backs leave the listener hash
with the same action set (no new entry). -/
theorem addListener_existing {st : EState} {objV : Val} {ev : String} {tA mA xf : Val}
    {addr : Nat} {st' : EState}
    (hreg : slotAt st.listeners ev (GKey.g (normalizeArgs tA mA).1)
      (GKey.g (normalizeArgs tA mA).2) = some (some addr))
    (hadd : addListener st objV ev tA mA xf = Except.ok st') :
    st'.heap = addListener.heapSetXform st.heap addr xf ∧
    st'.listeners = amSet st.listeners ev
      (some (amSet (getTS st.listeners ev) (GKey.g (normalizeArgs tA mA).1)
        (some (getAS (getTS st.listeners ev) (GKey.g (normalizeArgs tA mA).1))))) := by
  rw [slotAt] at hreg
  simp only [addListener] at hadd
  split at hadd
  · exact Except.noConfusion hadd
  · rw [hreg] at hadd
    injection hadd with hadd
    subst hadd
    exact ⟨rfl, rfl⟩

/-- `addListener` on an absent or tombstoned slot: a fresh record is
allocated at the end of the heap and the slot is pointed at it. -/
theorem addListener_new {st : EState} {objV : Val} {ev : String} {tA mA xf : Val}
    {st' : EState}
    (hreg : ∀ a, slotAt st.listeners ev (GKey.g (normalizeArgs tA mA).1)
      (GKey.g (normalizeArgs tA mA).2) ≠ some (some a))
    (hadd : addListener st objV ev tA mA xf = Except.ok st') :
    st'.heap = st.heap ++
      [{ target := (normalizeArgs tA mA).1, method := (normalizeArgs tA mA).2, xform := xf }] ∧
    st'.listeners = amSet st.listeners ev
      (some (amSet (getTS st.listeners ev) (GKey.g (normalizeArgs tA mA).1)
        (some (amSet (getAS (getTS st.listeners ev) (GKey.g (normalizeArgs tA mA).1))
          (GKey.g (normalizeArgs tA mA).2) (some st.heap.length))))) := by
  simp only [addListener] at hadd
  split at hadd
  · exact Except.noConfusion hadd
  · rcases hs : amGet (getAS (getTS st.listeners ev) (GKey.g (normalizeArgs tA mA).1))
        (GKey.g (normalizeArgs tA mA).2) with _ | s0
    · rw [hs] at hadd
      injection hadd with hadd
      subst hadd
      exact ⟨rfl, rfl⟩
    · rcases s0 with _ | a0
      · rw [hs] at hadd
        injection hadd with hadd
        subst hadd
        exact ⟨rfl, rfl⟩
      · exact absurd hs (hreg a0)

/-- Claim C10: `deferEvent` snapshots action records by reference, not by
value.  If the same (event, target, method) identity is re-registered with
a new transform `vfn x2` after the capture and before the closure runs,
the replay dereferences the shared record in the current heap and invokes
that action through the new transform `x2`, not the transform in effect at
capture time. -/
theorem deferEvent_snapshot_by_reference
    (env : Env) (st st2 : EState) (objV objV2 : Val) (ev : String) (tA mA : Val)
    (x2 : Nat) (args : List Val) (addr : Nat)
    (hreg : slotAt st.listeners ev (GKey.g (normalizeArgs tA mA).1)
      (GKey.g (normalizeArgs tA mA).2) = some (some addr))
    (hv : ∀ a ∈ liveAddrs (targetSetFor st.listeners ev), (st.heap[a]?).isSome = true)
    (hadd : addListener st objV2 ev tA mA (Val.vfn x2) = Except.ok st2)
    (hok : ∀ a ∈ (deferEvent st objV ev args).actions, ∃ act c, st2.heap[a]? = some act ∧
      invokeAction env a act (objV :: Val.vstr ev :: args) = Except.ok c) :
    ∃ c ∈ (runDeferred env st2.heap (deferEvent st objV ev args)).1,
      c.origin = addr ∧ c.xf = some x2 := by
  have hcap := deferEvent_actions st objV ev args hv
  have hmem : addr ∈ (deferEvent st objV ev args).actions := by
    rw [hcap]
    exact slot_live_mem hreg (by simp) (by simp)
  obtain ⟨old, hold⟩ := Option.isSome_iff_exists.mp (hv addr (by rw [← hcap]; exact hmem))
  obtain ⟨hheap, -⟩ := addListener_existing hreg hadd
  have hg2 : st2.heap[addr]? = some { old with xform := Val.vfn x2 } := by
    rw [hheap]
    exact heapSetXform_get_self (Val.vfn x2) hold
  obtain ⟨cs, hrun, horig, -⟩ := runActions_ok env st2.heap (objV :: Val.vstr ev :: args)
    (deferEvent st objV ev args).actions [] hok
  have hp : (deferEvent st objV ev args).params = objV :: Val.vstr ev :: args := rfl
  have htr : (runDeferred env st2.heap (deferEvent st objV ev args)).1 = cs := by
    rw [runDeferred, hp, hrun, List.nil_append]
  obtain ⟨c, hc, hco⟩ : ∃ c ∈ cs, c.origin = addr := by
    have hmm : addr ∈ cs.map (fun c => c.origin) := by
      rw [horig]
      exact hmem
    obtain ⟨c, hc, hco⟩ := List.mem_map.mp hmm
    exact ⟨c, hc, hco⟩
  refine ⟨c, by rw [htr]; exact hc, hco, ?_⟩
  have hcmem : c ∈ (runActions env st2.heap (objV :: Val.vstr ev :: args)
      (deferEvent st objV ev args).actions []).1 := by
    rw [hrun, List.nil_append]
    exact hc
  rcases runActions_mem env st2.heap (objV :: Val.vstr ev :: args)
      (deferEvent st objV ev args).actions [] c hcmem with h | ⟨-, -, act', hg', hi'⟩
  · exact absurd h (List.not_mem_nil c)
  · rw [hco, hg2] at hg'
    injection hg' with hg'
    rcases (invokeAction_ok hi').2.2 with ⟨hxf, -⟩ | ⟨x, hx, hcx⟩
    · rw [← hg'] at hxf
      simp [truthy] at hxf
    · rw [← hg'] at hx
      have hxx : x2 = x := by
        injection hx
      rw [hcx, hxx]

/-- Witness for C10: capture L1 registered with transform 77, re-register
it with transform 88, replay — the call uses transform 88. -/
theorem deferEvent_snapshot_by_reference_witness :
    ∃ c ∈ (runDeferred env0
        (okState (addListener
          (okState (addListener st0E (Val.vobj 0) ("e") (Val.vobj 1) (Val.vfn 10) (Val.vfn 77)))
          (Val.vobj 0) ("e") (Val.vobj 1) (Val.vfn 10) (Val.vfn 88))).heap
        (deferEvent
          (okState (addListener st0E (Val.vobj 0) ("e") (Val.vobj 1) (Val.vfn 10) (Val.vfn 77)))
          (Val.vobj 0) ("e") [Val.vnum 5])).1,
      c.origin = 0 ∧ c.xf = some 88 :=
  deferEvent_snapshot_by_reference env0
    (okState (addListener st0E (Val.vobj 0) ("e") (Val.vobj 1) (Val.vfn 10) (Val.vfn 77)))
    (okState (addListener
      (okState (addListener st0E (Val.vobj 0) ("e") (Val.vobj 1) (Val.vfn 10) (Val.vfn 77)))
      (Val.vobj 0) ("e") (Val.vobj 1) (Val.vfn 10) (Val.vfn 88)))
    (Val.vobj 0) (Val.vobj 0) ("e") (Val.vobj 1) (Val.vfn 10) 88 [Val.vnum 5] 0
    (by decide) (by decide) rfl
    (by
      intro a ha
      have hl : (deferEvent
          (okState (addListener st0E (Val.vobj 0) ("e") (Val.vobj 1) (Val.vfn 10) (Val.vfn 77)))
          (Val.vobj 0) ("e") [Val.vnum 5]).actions = [0] := by decide
      rw [hl] at ha
      have haa : a = 0 := by
        rcases List.mem_cons.mp ha with rfl | h
        · rfl
        · exact absurd h (List.not_mem_nil a)
      subst haa
      exact ⟨{ target := Val.vobj 1, method := Val.vfn 10, xform := Val.vfn 88 },
        { origin := 0, receiver := Val.vobj 1, mth := Val.vfn 10, xf := some 88,
          params := [Val.vobj 0, Val.vstr ("e"), Val.vnum 5] }, by decide, rfl⟩)

/-- Counterexample for C3 as stated: a body may trigger `hasListeners`'
negative-result cleanup on the suspended event; the `finally` then writes
into the detached hash, so — contrary to the claim's "restores the
original action on every exit path ... fire after suspend returns invokes
it again" over every body — the action is permanently lost: before the
suspension a fire invokes the record at address 0, after it the slot is
gone and a fire invokes nothing. -/
theorem suspendListener_detached_restore_counterexample :
    (sendEvent env0 stOne (Val.vobj 0) ("e") []).1.map (fun c => c.origin) = [0] ∧
    slotAt (suspendListener env0 stOne (Val.vobj 0) ("e") (Val.vobj 1) (Val.vfn 10)
        (fun _ => ([BodyCmd.probe ("e")], Val.vnull))).2.listeners ("e")
      (GKey.g (normalizeArgs (Val.vobj 1) (Val.vfn 10)).1)
      (GKey.g (normalizeArgs (Val.vobj 1) (Val.vfn 10)).2) = none ∧
    (sendEvent env0 (suspendListener env0 stOne (Val.vobj 0) ("e") (Val.vobj 1) (Val.vfn 10)
        (fun _ => ([BodyCmd.probe ("e")], Val.vnull))).2 (Val.vobj 0) ("e") []).1 = [] := by
  decide

/-- Claim C3 (amended): for a registered action and any body (a program of
registry API calls receiving the target as its receiver),
`suspendListener` tombstones exactly that action, runs the body on the
tombstoned state — a fire during the body never invokes the action —
and returns the body's result unchanged, a raised error included.  The
`finally` writes the captured action back through the hash captured at
entry: whenever the body has not triggered `hasListeners`' negative
cleanup on the suspended event (the `runBody` flag is still true), the
slot again holds the original action; and when the body additionally left
the registry untouched, the final state equals the initial one, so a
subsequent fire behaves identically to before the suspension. -/
theorem suspendListener_tombstone_and_restore
    (env : Env) (st : EState) (objV objV2 : Val) (ev : String) (tA mA : Val)
    (args : List Val) (addr : Nat) (cb : Val → List BodyCmd × Val)
    (r : Except EmErr Unit) (st2 : EState) (att : Bool)
    (hreg : slotAt st.listeners ev (GKey.g (normalizeArgs tA mA).1)
      (GKey.g (normalizeArgs tA mA).2) = some (some addr))
    (hndT : ((getTS st.listeners ev).map Prod.fst).Nodup)
    (hndA : ((getAS (getTS st.listeners ev) (GKey.g (normalizeArgs tA mA).1)).map
      Prod.fst).Nodup)
    (honly : onlySlotFor (getTS st.listeners ev) addr (GKey.g (normalizeArgs tA mA).1)
      (GKey.g (normalizeArgs tA mA).2) = true)
    (hrun : runBody env ev (cb (normalizeArgs tA mA).1).1 (suspendMid st ev tA mA) true =
      (r, st2, att)) :
    (suspendListener env st objV ev tA mA cb).1 =
      (match r with
        | Except.ok _ => Except.ok (cb (normalizeArgs tA mA).1).2
        | Except.error e => Except.error e) ∧
    (∀ c ∈ (sendEvent env (suspendMid st ev tA mA) objV2 ev args).1, c.origin ≠ addr) ∧
    (att = true → slotAt (suspendListener env st objV ev tA mA cb).2.listeners ev
      (GKey.g (normalizeArgs tA mA).1) (GKey.g (normalizeArgs tA mA).2) =
      some (some addr)) ∧
    (r = Except.ok () → st2 = suspendMid st ev tA mA → att = true →
      (suspendListener env st objV ev tA mA cb).2 = st) := by
  have hregU : amGet (getAS (getTS st.listeners ev) (GKey.g (normalizeArgs tA mA).1))
      (GKey.g (normalizeArgs tA mA).2) = some (some addr) := hreg
  obtain ⟨hev, hts⟩ := slot_path hregU
  refine ⟨?_, tombstoned_fire_clean env st objV2 ev tA mA args addr hreg hndT hndA honly,
    ?_, ?_⟩
  · simp only [suspendListener, hrun]
    cases r <;> rfl
  · intro hatt
    subst hatt
    simp only [suspendListener, slotAt, hrun, hregU, if_true]
    rw [getTS_amSet_self, getAS_amSet_self, amGet_amSet_self]
  · intro hr hst2 hatt
    subst hr
    subst hst2
    subst hatt
    have hmid : (suspendMid st ev tA mA).listeners =
        amSet st.listeners ev (some (amSet (getTS st.listeners ev)
          (GKey.g (normalizeArgs tA mA).1)
          (some (amSet (getAS (getTS st.listeners ev) (GKey.g (normalizeArgs tA mA).1))
            (GKey.g (normalizeArgs tA mA).2) none)))) := rfl
    have hmidh : (suspendMid st ev tA mA).heap = st.heap := rfl
    simp only [suspendListener, hrun, hregU, if_true, hmid, hmidh, getTS_amSet_self,
      getAS_amSet_self, amSet_amSet_self, amSet_self_of_amGet _ _ _ hregU]
    rw [amSet_self_of_amGet _ _ _ hts, amSet_self_of_amGet _ _ _ hev]

/-- A concrete suspension body: performs no registry calls and returns its
receiver. -/
def cbW : Val → List BodyCmd × Val :=
  fun t => ([], t)

/-- Witness for C3 at the one-listener state with the trivial body. -/
theorem suspendListener_tombstone_and_restore_witness :
    (suspendListener env0 stOne (Val.vobj 0) ("e") (Val.vobj 1) (Val.vfn 10) cbW).1 =
        Except.ok (cbW (normalizeArgs (Val.vobj 1) (Val.vfn 10)).1).2 ∧
      (∀ c ∈ (sendEvent env0 (suspendMid stOne ("e") (Val.vobj 1) (Val.vfn 10))
          (Val.vobj 0) ("e") []).1, c.origin ≠ 0) ∧
      (true = true →
        slotAt (suspendListener env0 stOne (Val.vobj 0) ("e") (Val.vobj 1)
          (Val.vfn 10) cbW).2.listeners ("e")
          (GKey.g (normalizeArgs (Val.vobj 1) (Val.vfn 10)).1)
          (GKey.g (normalizeArgs (Val.vobj 1) (Val.vfn 10)).2) = some (some 0)) ∧
      ((Except.ok () : Except EmErr Unit) = Except.ok () →
        suspendMid stOne ("e") (Val.vobj 1) (Val.vfn 10) =
          suspendMid stOne ("e") (Val.vobj 1) (Val.vfn 10) →
        true = true →
        (suspendListener env0 stOne (Val.vobj 0) ("e") (Val.vobj 1) (Val.vfn 10) cbW).2 =
          stOne) :=
  suspendListener_tombstone_and_restore env0 stOne (Val.vobj 0) (Val.vobj 0) ("e")
    (Val.vobj 1) (Val.vfn 10) [] 0 cbW (Except.ok ())
    (suspendMid stOne ("e") (Val.vobj 1) (Val.vfn 10)) true
    (by decide) (by decide) (by decide) (by decide) rfl

theorem get_of_lt {α : Type} {l : List α} {i : Nat} (h : i < l.length) :
    ∃ x, l[i]? = some x :=
  ⟨l[i], List.getElem?_eq_getElem h⟩

/-- Claim C4: registering the same (event, target, method) identity twice,
the second time with transform `x2`, leaves exactly one live action for
that identity — the slot points at a single record whose `xform` is `x2` —
and creates no duplicate: the listener hash and the number of allocated
records are unchanged by the second call. -/
theorem addListener_reregistration_refreshes_xform
    (st st1 st2 : EState) (objV : Val) (ev : String) (tA mA x1 x2 : Val)
    (hvalid : ∀ a, slotAt st.listeners ev (GKey.g (normalizeArgs tA mA).1)
      (GKey.g (normalizeArgs tA mA).2) = some (some a) → a < st.heap.length)
    (h1 : addListener st objV ev tA mA x1 = Except.ok st1)
    (h2 : addListener st1 objV ev tA mA x2 = Except.ok st2) :
    ∃ a act, slotAt st2.listeners ev (GKey.g (normalizeArgs tA mA).1)
        (GKey.g (normalizeArgs tA mA).2) = some (some a) ∧
      st2.heap[a]? = some act ∧ act.xform = x2 ∧
      st2.listeners = st1.listeners ∧ st2.heap.length = st1.heap.length := by
  have hkey : (∃ a0, slotAt st.listeners ev (GKey.g (normalizeArgs tA mA).1)
      (GKey.g (normalizeArgs tA mA).2) = some (some a0)) ∨
      (∀ a, slotAt st.listeners ev (GKey.g (normalizeArgs tA mA).1)
        (GKey.g (normalizeArgs tA mA).2) ≠ some (some a)) := by
    rcases hslot : slotAt st.listeners ev (GKey.g (normalizeArgs tA mA).1)
        (GKey.g (normalizeArgs tA mA).2) with _ | s0
    · exact Or.inr fun a h => Option.noConfusion h
    · rcases s0 with _ | a0
      · exact Or.inr fun a h => Option.noConfusion (Option.some.inj h)
      · exact Or.inl ⟨a0, rfl⟩
  rcases hkey with ⟨a0, hreg⟩ | hnew
  · -- the first registration already found a live slot
    obtain ⟨hh1, hl1⟩ := addListener_existing hreg h1
    have hreg1 : slotAt st1.listeners ev (GKey.g (normalizeArgs tA mA).1)
        (GKey.g (normalizeArgs tA mA).2) = some (some a0) := by
      rw [slotAt, hl1, getTS_amSet_self, getAS_amSet_self]
      exact hreg
    obtain ⟨hh2, hl2⟩ := addListener_existing hreg1 h2
    obtain ⟨old, hold⟩ := get_of_lt (hvalid a0 hreg)
    have hold1 : st1.heap[a0]? = some { old with xform := x1 } := by
      rw [hh1]
      exact heapSetXform_get_self x1 hold
    refine ⟨a0, { old with xform := x2 }, ?_, ?_, rfl, ?_, ?_⟩
    · rw [slotAt, hl2, getTS_amSet_self, getAS_amSet_self, hl1, getTS_amSet_self,
        getAS_amSet_self]
      exact hreg
    · rw [hh2]
      have := heapSetXform_get_self x2 hold1
      simpa using this
    · rw [hl2, hl1, getTS_amSet_self, getAS_amSet_self, amSet_amSet_self, amSet_amSet_self]
    · rw [hh2, heapSetXform_length]
  · -- the first registration allocated a fresh record
    obtain ⟨hh1, hl1⟩ := addListener_new hnew h1
    have hreg1 : slotAt st1.listeners ev (GKey.g (normalizeArgs tA mA).1)
        (GKey.g (normalizeArgs tA mA).2) = some (some st.heap.length) := by
      rw [slotAt, hl1, getTS_amSet_self, getAS_amSet_self, amGet_amSet_self]
    obtain ⟨hh2, hl2⟩ := addListener_existing hreg1 h2
    have hold1 : st1.heap[st.heap.length]? = some
        { target := (normalizeArgs tA mA).1, method := (normalizeArgs tA mA).2, xform := x1 } := by
      rw [hh1]
      exact get_append_length st.heap _
    refine ⟨st.heap.length,
      { target := (normalizeArgs tA mA).1, method := (normalizeArgs tA mA).2, xform := x2 },
      ?_, ?_, rfl, ?_, ?_⟩
    · rw [slotAt, hl2, getTS_amSet_self, getAS_amSet_self, hl1, getTS_amSet_self,
        getAS_amSet_self, amGet_amSet_self]
    · rw [hh2]
      have := heapSetXform_get_self x2 hold1
      simpa using this
    · rw [hl2, hl1, getTS_amSet_self, getAS_amSet_self, amSet_amSet_self, amSet_amSet_self]
    · rw [hh2, heapSetXform_length]

/-- Witness for C4: re-register L1 with transform 77 then 88. -/
theorem addListener_reregistration_refreshes_xform_witness :
    ∃ a act, slotAt (okState (addListener stOne (Val.vobj 0) ("e") (Val.vobj 1) (Val.vfn 10)
        (Val.vfn 88))).listeners ("e") (GKey.g (normalizeArgs (Val.vobj 1) (Val.vfn 10)).1)
        (GKey.g (normalizeArgs (Val.vobj 1) (Val.vfn 10)).2) = some (some a) ∧
      (okState (addListener stOne (Val.vobj 0) ("e") (Val.vobj 1) (Val.vfn 10)
        (Val.vfn 88))).heap[a]? = some act ∧ act.xform = Val.vfn 88 ∧
      (okState (addListener stOne (Val.vobj 0) ("e") (Val.vobj 1) (Val.vfn 10)
        (Val.vfn 88))).listeners = stOne.listeners ∧
      (okState (addListener stOne (Val.vobj 0) ("e") (Val.vobj 1) (Val.vfn 10)
        (Val.vfn 88))).heap.length = stOne.heap.length :=
  addListener_reregistration_refreshes_xform st0E stOne
    (okState (addListener stOne (Val.vobj 0) ("e") (Val.vobj 1) (Val.vfn 10) (Val.vfn 88)))
    (Val.vobj 0) ("e") (Val.vobj 1) (Val.vfn 10) Val.vnull (Val.vfn 88)
    (by
      intro a h
      have hz : slotAt st0E.listeners ("e")
          (GKey.g (normalizeArgs (Val.vobj 1) (Val.vfn 10)).1)
          (GKey.g (normalizeArgs (Val.vobj 1) (Val.vfn 10)).2) = none := by decide
      rw [hz] at h
      exact Option.noConfusion h)
    rfl rfl

/-- `removeListener` of a live slot produces exactly the tombstoned state
`suspendListener` runs its body in. -/
theorem removeListener_of_live {st : EState} {objV : Val} {ev : String} {tA mA : Val}
    {addr : Nat}
    (hreg : slotAt st.listeners ev (GKey.g (normalizeArgs tA mA).1)
      (GKey.g (normalizeArgs tA mA).2) = some (some addr)) :
    removeListener st objV ev tA mA = suspendMid st ev tA mA := by
  rw [slotAt] at hreg
  simp only [removeListener, suspendMid, hreg]

/-- `removeListener` of an absent or tombstoned slot rewrites nothing but
the (possibly freshly created) path. -/
theorem removeListener_of_dead {st : EState} {objV : Val} {ev : String} {tA mA : Val}
    (hne : ∀ a, slotAt st.listeners ev (GKey.g (normalizeArgs tA mA).1)
      (GKey.g (normalizeArgs tA mA).2) ≠ some (some a)) :
    (removeListener st objV ev tA mA).listeners = amSet st.listeners ev
      (some (amSet (getTS st.listeners ev) (GKey.g (normalizeArgs tA mA).1)
        (some (getAS (getTS st.listeners ev) (GKey.g (normalizeArgs tA mA).1))))) := by
  simp only [removeListener]
  rcases hs : amGet (getAS (getTS st.listeners ev) (GKey.g (normalizeArgs tA mA).1))
      (GKey.g (normalizeArgs tA mA).2) with _ | s0
  · rfl
  · rcases s0 with _ | a0
    · rfl
    · exact absurd hs (hne a0)

/-- Claim C5: removing a registered action tombstones it, so a subsequent
`sendEvent` on the same (object, eventName) never invokes the removed
action; and `removeListener` on a (target, method) pair that was never
live is a no-op on the observable listener sets of every event (and, being
a total function in this model, raises nothing). -/
theorem removeListener_removes_and_unregistered_noop :
    (∀ (env : Env) (st : EState) (objV objV2 : Val) (ev : String) (tA mA : Val)
        (args : List Val) (addr : Nat),
      slotAt st.listeners ev (GKey.g (normalizeArgs tA mA).1)
        (GKey.g (normalizeArgs tA mA).2) = some (some addr) →
      ((getTS st.listeners ev).map Prod.fst).Nodup →
      ((getAS (getTS st.listeners ev) (GKey.g (normalizeArgs tA mA).1)).map Prod.fst).Nodup →
      onlySlotFor (getTS st.listeners ev) addr (GKey.g (normalizeArgs tA mA).1)
        (GKey.g (normalizeArgs tA mA).2) = true →
      ∀ c ∈ (sendEvent env (removeListener st objV ev tA mA) objV2 ev args).1,
        c.origin ≠ addr) ∧
    (∀ (st : EState) (objV : Val) (ev : String) (tA mA : Val),
      (∀ a, slotAt st.listeners ev (GKey.g (normalizeArgs tA mA).1)
        (GKey.g (normalizeArgs tA mA).2) ≠ some (some a)) →
      ∀ ev', liveAddrs (targetSetFor (removeListener st objV ev tA mA).listeners ev') =
        liveAddrs (targetSetFor st.listeners ev')) := by
  constructor
  · intro env st objV objV2 ev tA mA args addr hreg hndT hndA honly
    rw [removeListener_of_live hreg]
    exact tombstoned_fire_clean env st objV2 ev tA mA args addr hreg hndT hndA honly
  · intro st objV ev tA mA hne ev'
    rw [removeListener_of_dead hne]
    by_cases hev' : ev' = ev
    · subst hev'
      rw [targetSetFor_amSet_self]
      rcases hev : amGet st.listeners ev' with _ | ts0
      · have hts : getTS st.listeners ev' = [] := by
          rw [getTS, hev]
        rw [hts, liveAddrs, targetSetFor, hev]
        have hga : getAS ([] : TargetSet) (GKey.g (normalizeArgs tA mA).1) = [] := rfl
        rw [hga]
        simp [amSet, liveAddrsTS, contribT, liveAddrsAS, liveAddrs]
      · rcases ts0 with _ | ts0
        · have hts : getTS st.listeners ev' = [] := by
            rw [getTS, hev]
          rw [hts, liveAddrs, targetSetFor, hev]
          have hga : getAS ([] : TargetSet) (GKey.g (normalizeArgs tA mA).1) = [] := rfl
          rw [hga]
          simp [amSet, liveAddrsTS, contribT, liveAddrsAS, liveAddrs]
        · have hts : getTS st.listeners ev' = ts0 := by
            rw [getTS, hev]
          have htf : targetSetFor st.listeners ev' = some ts0 := by
            rw [targetSetFor, hev]
          rw [hts, htf, liveAddrs, liveAddrs]
          rcases htk : amGet ts0 (GKey.g (normalizeArgs tA mA).1) with _ | acts0
          · have hga : getAS ts0 (GKey.g (normalizeArgs tA mA).1) = [] := by
              rw [getAS, htk]
            rw [hga, amGet_none_amSet _ _ _ htk, liveAddrsTS_append]
            simp [liveAddrsTS, contribT, liveAddrsAS]
          · rcases acts0 with _ | acts0
            · have hga : getAS ts0 (GKey.g (normalizeArgs tA mA).1) = [] := by
                rw [getAS, htk]
              rw [hga]
              exact liveAddrsTS_amSet_dead htk (by simp [contribT]) (by
                simp [contribT, liveAddrsAS])
            · have hga : getAS ts0 (GKey.g (normalizeArgs tA mA).1) = acts0 := by
                rw [getAS, htk]
              rw [hga, amSet_self_of_amGet _ _ _ htk]
    · rw [liveAddrs.eq_def, liveAddrs.eq_def, targetSetFor, targetSetFor,
        amGet_amSet_ne _ _ _ _ hev']

/-- Witness for C5: removing L1 then firing performs no call of its
record; removing from an empty object is observably a no-op. -/
theorem removeListener_removes_and_unregistered_noop_witness :
    (∀ c ∈ (sendEvent env0 (removeListener stOne (Val.vobj 0) ("e") (Val.vobj 1) (Val.vfn 10))
        (Val.vobj 0) ("e") []).1, c.origin ≠ 0) ∧
      liveAddrs (targetSetFor (removeListener st0E (Val.vobj 0) ("x")
        Val.vnull Val.vnull).listeners ("x")) =
        liveAddrs (targetSetFor st0E.listeners ("x")) :=
  ⟨removeListener_removes_and_unregistered_noop.1 env0 stOne (Val.vobj 0) (Val.vobj 0) ("e")
      (Val.vobj 1) (Val.vfn 10) [] 0 (by decide) (by decide) (by decide) (by decide),
    removeListener_removes_and_unregistered_noop.2 st0E (Val.vobj 0) ("x") Val.vnull Val.vnull
      (by
        intro a h
        have hz : slotAt st0E.listeners ("x") (GKey.g (normalizeArgs Val.vnull Val.vnull).1)
            (GKey.g (normalizeArgs Val.vnull Val.vnull).2) = none := by decide
        rw [hz] at h
        exact Option.noConfusion h) ("x")⟩

/-- The writable and the read-only view of an event's target set have the
same live addresses. -/
theorem liveTS_getTS (ls : ListenerSet) (ev : String) :
    liveAddrsTS (getTS ls ev) = liveAddrs (targetSetFor ls ev) := by
  rcases h : amGet ls ev with _ | s
  · simp only [getTS, targetSetFor, h, liveAddrs, liveAddrsTS]
  · rcases s with _ | ts
    · simp only [getTS, targetSetFor, h, liveAddrs, liveAddrsTS]
    · simp only [getTS, targetSetFor, h, liveAddrs]

/-- In an event with no live addresses, every action set read from it is
all-dead. -/
theorem liveAS_getAS_nil {ts : TargetSet} {tk : GKey}
    (h : liveAddrsTS ts = []) (htk : tk ≠ GKey.sentinel) :
    liveAddrsAS (getAS ts tk) = [] := by
  rcases hg : amGet ts tk with _ | s
  · simp only [getAS, hg]
    rfl
  · rcases s with _ | acts
    · simp only [getAS, hg]
      rfl
    · simp only [getAS, hg]
      rcases hl : liveAddrsAS acts with _ | ⟨a, rest⟩
      · rfl
      · have ha : a ∈ liveAddrsAS acts := by
          rw [hl]
          exact List.mem_cons_self _ _
        have : a ∈ liveAddrsTS ts :=
          mem_liveAddrsTS.mpr ⟨tk, acts, amGet_mem _ _ _ hg, htk, ha⟩
        rw [h] at this
        exact absurd this (List.not_mem_nil a)

/-- A negative `hasListeners` result leaves the cleanup state. -/
theorem hasListeners_snd_of_false {st : EState} {ev : String}
    (h : (hasListeners st ev).1 = false) :
    (hasListeners st ev).2 = { st with listeners := amSet st.listeners ev none } := by
  rw [hasListeners] at h ⊢
  by_cases hb : iterBool (iterateSet st.heap (targetSetFor st.listeners ev)
      (fun (s : Unit) _ _ => CbRes.stop s) ()) = true
  · rw [if_pos hb] at h
    exact absurd h (by simp)
  · rw [if_neg hb]

/-- Claim C7: `hasListeners` answers "is any live action registered?" —
false for an event with zero live actions, true when one exists.  Its
negative-result cleanup (nulling the event's target-set entry) is not
observable as a behavior change: registering on the cleaned state and on
the original state produce the same live-action set (the single fresh
record) and the same heap, `hasListeners` turns true again, and a
subsequent `sendEvent` invokes the new listener. -/
theorem hasListeners_probe_and_cleanup_unobservable
    (st st1 st2 : EState) (ev : String) (env : Env) (objV objV2 : Val) (tA mA xf : Val)
    (args : List Val)
    (hv : ∀ a ∈ liveAddrs (targetSetFor st.listeners ev), (st.heap[a]?).isSome = true) :
    (∀ st' : EState,
      (∀ a ∈ liveAddrs (targetSetFor st'.listeners ev), (st'.heap[a]?).isSome = true) →
      ((hasListeners st' ev).1 = true ↔ liveAddrs (targetSetFor st'.listeners ev) ≠ [])) ∧
    ((hasListeners st ev).1 = false →
      addListener (hasListeners st ev).2 objV ev tA mA xf = Except.ok st1 →
      addListener st objV ev tA mA xf = Except.ok st2 →
      liveAddrs (targetSetFor st1.listeners ev) = [st.heap.length] ∧
      liveAddrs (targetSetFor st2.listeners ev) = [st.heap.length] ∧
      st1.heap = st2.heap ∧
      (hasListeners st1 ev).1 = true ∧
      (∀ c0, invokeAction env st.heap.length
          { target := (normalizeArgs tA mA).1, method := (normalizeArgs tA mA).2, xform := xf }
          (objV2 :: Val.vstr ev :: args) = Except.ok c0 →
        ∃ c ∈ (sendEvent env st1 objV2 ev args).1, c.origin = st.heap.length)) := by
  refine ⟨fun st' hv' => hasListeners_true_iff st' ev hv', ?_⟩
  intro hfalse h1 h2
  have hlz : liveAddrs (targetSetFor st.listeners ev) = [] := by
    by_contra hne
    have := (hasListeners_true_iff st ev hv).mpr hne
    rw [hfalse] at this
    exact Bool.noConfusion this
  have hC := hasListeners_snd_of_false hfalse
  -- registration on the cleaned state
  have hCslot : ∀ a, slotAt (hasListeners st ev).2.listeners ev
      (GKey.g (normalizeArgs tA mA).1) (GKey.g (normalizeArgs tA mA).2) ≠ some (some a) := by
    intro a h
    rw [hC] at h
    have hts : getTS (amSet st.listeners ev none) ev = [] := by
      rw [getTS, amGet_amSet_self]
    rw [slotAt, hts] at h
    have : getAS ([] : TargetSet) (GKey.g (normalizeArgs tA mA).1) = [] := rfl
    rw [this] at h
    exact Option.noConfusion h
  obtain ⟨hh1, hl1⟩ := addListener_new hCslot h1
  -- registration on the original state
  have hslot : ∀ a, slotAt st.listeners ev
      (GKey.g (normalizeArgs tA mA).1) (GKey.g (normalizeArgs tA mA).2) ≠ some (some a) := by
    intro a h
    have := slot_live_mem h (by simp) (by simp)
    rw [hlz] at this
    exact absurd this (List.not_mem_nil a)
  obtain ⟨hh2, hl2⟩ := addListener_new hslot h2
  have hCheap : (hasListeners st ev).2.heap = st.heap := by
    rw [hC]
  have hCheapLen : (hasListeners st ev).2.heap.length = st.heap.length := by
    rw [hCheap]
  have hrec1 : st1.heap = st.heap ++
      [{ target := (normalizeArgs tA mA).1, method := (normalizeArgs tA mA).2, xform := xf }] := by
    rw [hh1, hCheap]
  have hlive1 : liveAddrs (targetSetFor st1.listeners ev) = [st.heap.length] := by
    rw [hl1, targetSetFor_amSet_self, liveAddrs]
    have hts : getTS (hasListeners st ev).2.listeners ev = [] := by
      rw [hC, getTS, amGet_amSet_self]
    rw [hts]
    have hga : getAS ([] : TargetSet) (GKey.g (normalizeArgs tA mA).1) = [] := rfl
    rw [hga, hCheapLen]
    have hznil : liveAddrsTS ([] : TargetSet) = [] := rfl
    have haznil : liveAddrsAS ([] : ActionSet) = [] := rfl
    rw [liveAddrsTS_amSet_of_empty hznil (by simp),
      liveAddrsAS_amSet_of_empty haznil (by simp)]
  have hlive2 : liveAddrs (targetSetFor st2.listeners ev) = [st.heap.length] := by
    rw [hl2, targetSetFor_amSet_self, liveAddrs]
    have htsz : liveAddrsTS (getTS st.listeners ev) = [] := by
      rw [liveTS_getTS, hlz]
    have hasz : liveAddrsAS (getAS (getTS st.listeners ev) (GKey.g (normalizeArgs tA mA).1)) = [] :=
      liveAS_getAS_nil htsz (by simp)
    rw [liveAddrsTS_amSet_of_empty htsz (by simp),
      liveAddrsAS_amSet_of_empty hasz (by simp)]
  have hheapEq : st1.heap = st2.heap := by
    rw [hrec1, hh2]
  have hg1 : st1.heap[st.heap.length]? = some
      { target := (normalizeArgs tA mA).1, method := (normalizeArgs tA mA).2, xform := xf } := by
    rw [hrec1]
    exact get_append_length st.heap _
  have hv1 : ∀ a ∈ liveAddrs (targetSetFor st1.listeners ev), (st1.heap[a]?).isSome = true := by
    intro a ha
    rw [hlive1] at ha
    have haa : a = st.heap.length := by
      rcases List.mem_cons.mp ha with rfl | h
      · rfl
      · exact absurd h (List.not_mem_nil a)
    subst haa
    rw [hg1]
    rfl
  refine ⟨hlive1, hlive2, hheapEq, ?_, ?_⟩
  · rw [hasListeners_true_iff st1 ev hv1, hlive1]
    simp
  · intro c0 hinv
    obtain ⟨cs, hrun, horig, -⟩ := runActions_ok env st1.heap (objV2 :: Val.vstr ev :: args)
      (liveAddrs (targetSetFor st1.listeners ev)) []
      (by
        intro a ha
        rw [hlive1] at ha
        have haa : a = st.heap.length := by
          rcases List.mem_cons.mp ha with rfl | h
          · rfl
          · exact absurd h (List.not_mem_nil a)
        subst haa
        exact ⟨_, c0, hg1, hinv⟩)
    rw [sendEvent_eq_runActions, hrun, List.nil_append]
    have : st.heap.length ∈ cs.map (fun c => c.origin) := by
      rw [horig, hlive1]
      exact List.mem_cons_self _ _
    obtain ⟨c, hc, hco⟩ := List.mem_map.mp this
    exact ⟨c, hc, hco⟩

/-- The cleanup state `hasListeners` leaves on the empty object. -/
def stClean : EState := (hasListeners st0E ("e")).2

/-- Registration performed after the cleanup. -/
def stR1 : EState :=
  okState (addListener stClean (Val.vobj 0) ("e") (Val.vobj 1) (Val.vfn 10) Val.vnull)

/-- The same registration performed without the cleanup. -/
def stR2 : EState :=
  okState (addListener st0E (Val.vobj 0) ("e") (Val.vobj 1) (Val.vfn 10) Val.vnull)

/-- Witness for C7 on the empty object. -/
theorem hasListeners_probe_and_cleanup_unobservable_witness :
    (∀ st' : EState,
      (∀ a ∈ liveAddrs (targetSetFor st'.listeners ("e")), (st'.heap[a]?).isSome = true) →
      ((hasListeners st' ("e")).1 = true ↔
        liveAddrs (targetSetFor st'.listeners ("e")) ≠ [])) ∧
    ((hasListeners st0E ("e")).1 = false →
      addListener (hasListeners st0E ("e")).2 (Val.vobj 0) ("e") (Val.vobj 1) (Val.vfn 10)
        Val.vnull = Except.ok stR1 →
      addListener st0E (Val.vobj 0) ("e") (Val.vobj 1) (Val.vfn 10) Val.vnull =
        Except.ok stR2 →
      liveAddrs (targetSetFor stR1.listeners ("e")) = [st0E.heap.length] ∧
      liveAddrs (targetSetFor stR2.listeners ("e")) = [st0E.heap.length] ∧
      stR1.heap = stR2.heap ∧
      (hasListeners stR1 ("e")).1 = true ∧
      (∀ c0, invokeAction env0 st0E.heap.length
          { target := (normalizeArgs (Val.vobj 1) (Val.vfn 10)).1,
            method := (normalizeArgs (Val.vobj 1) (Val.vfn 10)).2, xform := Val.vnull }
          (Val.vobj 0 :: Val.vstr ("e") :: []) = Except.ok c0 →
        ∃ c ∈ (sendEvent env0 stR1 (Val.vobj 0) ("e") []).1,
          c.origin = st0E.heap.length)) :=
  hasListeners_probe_and_cleanup_unobservable st0E stR1 stR2 ("e") env0 (Val.vobj 0)
    (Val.vobj 0) (Val.vobj 1) (Val.vfn 10) Val.vnull [] (by decide)

/-- Counterexample for C8: `sendEvent` with an empty event name completes
normally (returning an empty trace and no error) and `removeListener`
without a valid object or event name returns normally after creating an
empty path — neither raises `InvalidArgument`, contradicting the claim
that all three entry points validate. -/
theorem validation_missing_counterexample :
    sendEvent env0 st0E (Val.vobj 0) ("") [] = ([], none) ∧
    removeListener st0E (Val.vobj 0) ("") Val.vnull Val.vnull =
      { heap := [], listeners := [(("") , some [(GKey.g Val.vnull, some [])])] } := by
  constructor
  · decide
  · decide

/-- Amended C8: only `addListener` validates its arguments — it raises
`InvalidArgument` whenever the object is falsy or the event name empty —
while `removeListener` (a total operation in this model, see
`validation_missing_counterexample`) and `sendEvent` perform no such
validation: firing an event with no live actions, such as the empty event
name that `addListener` refuses to register under, completes without any
error. -/
theorem addListener_only_validates :
    (∀ (st : EState) (objV : Val) (ev : String) (tA mA xf : Val),
      (truthy objV && (ev != (""))) = false →
      addListener st objV ev tA mA xf = Except.error (EmErr.invalidArgument
        ("You must pass at least an object and event name to Ember.addListener"))) ∧
    (∀ (env : Env) (st : EState) (objV : Val) (args : List Val),
      liveAddrs (targetSetFor st.listeners ("")) = [] →
      sendEvent env st objV ("") args = ([], none)) := by
  constructor
  · intro st objV ev tA mA xf hcond
    simp [addListener, emberAssert, hcond]
  · intro env st objV args hlz
    rw [sendEvent_eq_runActions, hlz]
    rfl

/-- Witness for the amended C8. -/
theorem addListener_only_validates_witness :
    addListener st0E (Val.vobj 0) ("") Val.vnull Val.vnull Val.vnull =
      Except.error (EmErr.invalidArgument
        ("You must pass at least an object and event name to Ember.addListener")) ∧
    sendEvent env0 st0E (Val.vobj 0) ("") [] = ([], none) :=
  ⟨addListener_only_validates.1 st0E (Val.vobj 0) ("") Val.vnull Val.vnull Val.vnull
      (by decide),
    addListener_only_validates.2 env0 st0E (Val.vobj 0) [] (by decide)⟩
